import Mathlib

/-!
# Verification of the MiniCode agent engine (`src/minicode/cli.py`)

Shallow embedding of the pure cores of the MiniCode command-line agent:
the context compactor, the retry controller, the tool dispatcher, the
built-in Read/Write/Edit tools, the difflib-based unified-diff engine,
and the stream assembler.  Python strings are modelled as `List Char`
(`Str`), Python dicts for messages as a fixed-field structure matching
the keys this program ever puts in a message, JSON payloads as a small
`Json` inductive with a `dumps` mirroring `json.dumps` defaults.
-/

namespace Minicode

/-- Python strings are modelled as lists of characters. -/
abbrev Str := List Char

/-- Coerce a Lean string literal to the `Str` model. -/
def str (s : String) : Str := s.data

/-- Fueled decimal rendering; `fuel` bounds the number of digits, so any
`fuel ≥ n` is enough (a number has at most `n` digits). -/
def natToStrAux : Nat → Nat → Str
  | _, 0 => [Char.ofNat 48]
  | 0, _ => []
  | fuel + 1, n =>
    if n < 10 then [Char.ofNat (48 + n)]
    else natToStrAux fuel (n / 10) ++ [Char.ofNat (48 + n % 10)]

/-- Decimal rendering of a natural number, as Python `repr`/`format` prints it. -/
def natToStr (n : Nat) : Str := natToStrAux (n + 1) n

/-! ## Data model: messages

A `Message` models a conversation-dict of the program.  The program only
ever stores the keys `role`, `content`, `tool_call_id`, `tool_calls`,
`reasoning_content`, `reasoning_details`; an `Option`/empty-list field
value models the absence of the corresponding key. -/

/-- One entry of an assistant message's `tool_calls` list (flattened:
`id`, `function.name`, `function.arguments`). -/
structure ToolCallReq where
  id : Str
  name : Str
  arguments : Str
deriving DecidableEq, Repr

/-- A conversation message (a Python dict in the source). -/
structure Message where
  role : Str
  content : Str
  tool_call_id : Option Str := none
  tool_calls : List ToolCallReq := []
  reasoning_content : Option Str := none
  reasoning_details : Option (List Str) := none
deriving DecidableEq, Repr

/-! ## Context compactor (`compact`, cli.py lines 557-579) -/

/-- The fixed placeholder written into compacted tool messages. -/
def placeholder : Str := str "(content removed to save space in the context window)"

/-- The per-message rewrite applied in the middle span of `compact`:
a tool-role message is rebuilt as the three-key dict
`{role, tool_call_id, content = placeholder}`; anything else passes through. -/
def compactMsg (m : Message) : Message :=
  if m.role = str "tool" then
    { role := str "tool", tool_call_id := m.tool_call_id, content := placeholder,
      tool_calls := [], reasoning_content := none, reasoning_details := none }
  else m

/-- `compact(messages)` from cli.py: conversations of length ≤ 3 are returned
unchanged; otherwise message 0 is kept, the middle span (`messages[1:-recent]`
with `recent = (len-1) // 2`) is rewritten by `compactMsg`, and the last
`recent` messages are kept verbatim. -/
def compact (ms : List Message) : List Message :=
  if ms.length ≤ 3 then ms
  else
    let recent := (ms.length - 1) / 2
    ms.take 1 ++ ((ms.take (ms.length - recent)).drop 1).map compactMsg
      ++ ms.drop (ms.length - recent)

/-! ### Structural lemmas about `compact` -/

theorem compact_of_short {ms : List Message} (h : ms.length ≤ 3) : compact ms = ms := by
  simp [compact, h]

theorem compact_length (ms : List Message) : (compact ms).length = ms.length := by
  by_cases h : ms.length ≤ 3
  · simp [compact, h]
  · simp only [compact, if_neg h]
    simp only [List.length_append, List.length_take, List.length_drop, List.length_map]
    omega

theorem compact_getElem?_zero {ms : List Message} (h : 3 < ms.length) :
    (compact ms)[0]? = ms[0]? := by
  simp only [compact, if_neg (by omega : ¬ ms.length ≤ 3)]
  rw [List.getElem?_append_left (by simp; omega), List.getElem?_append_left (by simp; omega)]
  rw [List.getElem?_take_of_lt (by omega)]

theorem compact_getElem?_mid {ms : List Message} {k : Nat} (h : 3 < ms.length)
    (h0 : 0 < k) (h1 : k < ms.length - (ms.length - 1) / 2) :
    (compact ms)[k]? = (ms[k]?).map compactMsg := by
  simp only [compact, if_neg (by omega : ¬ ms.length ≤ 3)]
  rw [List.getElem?_append_left (by simp; omega)]
  rw [List.getElem?_append_right (by simp; omega)]
  simp only [List.length_take]
  rw [List.getElem?_map, List.getElem?_drop]
  have hk : 1 + (k - min 1 ms.length) = k := by omega
  rw [hk, List.getElem?_take_of_lt h1]

theorem compact_getElem?_suffix {ms : List Message} {k : Nat} (h : 3 < ms.length)
    (h2 : ms.length - (ms.length - 1) / 2 ≤ k) :
    (compact ms)[k]? = ms[k]? := by
  simp only [compact, if_neg (by omega : ¬ ms.length ≤ 3)]
  rw [List.getElem?_append_right (by simp; omega)]
  rw [List.getElem?_drop]
  congr 1
  simp only [List.length_append, List.length_take, List.length_map, List.length_drop]
  omega

theorem compactMsg_idem (m : Message) : compactMsg (compactMsg m) = compactMsg m := by
  by_cases h : m.role = str "tool" <;> simp [compactMsg, h]

/-- **C1.** `compact` on a conversation of length `N > 3` preserves the length,
keeps message 0 and the last `⌊(N-1)/2⌋` messages identical to the input,
replaces the content of every tool-role message strictly between index 0 and
that kept suffix by the fixed placeholder while keeping its role and
`tool_call_id`, and leaves every non-tool message of that middle span
unchanged; a conversation of length `N ≤ 3` is returned unchanged. -/
theorem compact_contract (ms : List Message) :
    (ms.length ≤ 3 → compact ms = ms) ∧
    (3 < ms.length →
      (compact ms).length = ms.length ∧
      (compact ms)[0]? = ms[0]? ∧
      (∀ k, ms.length - (ms.length - 1) / 2 ≤ k → (compact ms)[k]? = ms[k]?) ∧
      (∀ k, 0 < k → k < ms.length - (ms.length - 1) / 2 → ∀ m, ms[k]? = some m →
        (compact ms)[k]? = some (if m.role = str "tool" then
          { role := m.role, tool_call_id := m.tool_call_id, content := placeholder,
            tool_calls := [], reasoning_content := none, reasoning_details := none }
          else m))) := by
  refine ⟨fun h => compact_of_short h, fun h => ⟨compact_length ms, compact_getElem?_zero h,
    fun k hk => compact_getElem?_suffix h hk, fun k h0 h1 m hm => ?_⟩⟩
  rw [compact_getElem?_mid h h0 h1, hm]
  by_cases hr : m.role = str "tool"
  · simp [compactMsg, hr]
  · simp [compactMsg, hr]

/-- Witness for C1 at a concrete 5-message conversation. -/
theorem compact_contract_witness :
    let sys : Message := { role := str "system", content := str "s" }
    let usr : Message := { role := str "user", content := str "u" }
    let tm : Message := { role := str "tool", content := str "big output",
                          tool_call_id := some (str "call_1") }
    let asst : Message := { role := str "assistant", content := str "a" }
    let last : Message := { role := str "user", content := str "v" }
    let ms := [sys, usr, tm, asst, last]
    (compact ms).length = ms.length ∧
    (compact ms)[0]? = ms[0]? ∧
    (compact ms)[2]? = some { role := str "tool", content := placeholder,
                              tool_call_id := some (str "call_1") } ∧
    (compact ms)[1]? = ms[1]? ∧
    (compact ms)[3]? = ms[3]? ∧ (compact ms)[4]? = ms[4]? := by
  intro sys usr tm asst last ms
  have h := compact_contract ms
  have h4 : 3 < ms.length := by decide
  obtain ⟨hlen, h0, hsuf, hmid⟩ := h.2 h4
  refine ⟨hlen, h0, ?_, ?_, ?_, ?_⟩
  · have := hmid 2 (by decide) (by decide) tm (by decide)
    simpa using this
  · have := hmid 1 (by decide) (by decide) usr (by decide)
    simpa using this
  · exact hsuf 3 (by decide)
  · exact hsuf 4 (by decide)

/-- **C10.** Compaction is idempotent: `compact (compact ms) = compact ms`
for every conversation `ms`. -/
theorem compact_idem (ms : List Message) : compact (compact ms) = compact ms := by
  by_cases h : ms.length ≤ 3
  · rw [compact_of_short h, compact_of_short h]
  · have h' : 3 < ms.length := by omega
    have hlen : (compact ms).length = ms.length := compact_length ms
    apply List.ext_getElem?
    intro k
    rcases Nat.eq_zero_or_pos k with rfl | hk0
    · rw [compact_getElem?_zero (by omega), compact_getElem?_zero h']
    · by_cases hks : ms.length - (ms.length - 1) / 2 ≤ k
      · rw [compact_getElem?_suffix (by omega) (by rw [hlen]; exact hks)]
      · have hkm : k < ms.length - (ms.length - 1) / 2 := by omega
        rw [compact_getElem?_mid (by omega) hk0 (by rw [hlen]; exact hkm),
          compact_getElem?_mid h' hk0 hkm]
        cases hmk : ms[k]? with
        | none => rfl
        | some m => simp [compactMsg_idem]

/-! ## Retry controller (cli.py lines 683-791)

The inner `while True` loop around `openai_client.chat.completions.create`
plus stream consumption: `retries_left` starts at 5, `delay` at 0.5; a
transient error (`httpx.HTTPError`, `APIConnectionError`, `APITimeoutError`,
`ConflictError`, `InternalServerError`, `RateLimitError`,
`UnprocessableEntityError`) decrements `retries_left`, re-raises when it
reaches 0, otherwise sleeps `delay` and doubles it; any other error
propagates uncaught.  One attempt (open + assemble) is modelled as a
function of the attempt index. -/

/-- Outcome of one attempt to open and consume the model stream. -/
inductive AttemptResult (σ : Type) where
  | ok (s : σ)
  | transient (e : Str)
  | terminal (e : Str)
deriving DecidableEq, Repr

/-- What the retry controller did: how many attempts were made, the sleeps
performed between consecutive attempts (in order), and the final outcome. -/
structure RetryResult (σ : Type) where
  attempts : Nat
  sleeps : List ℚ
  outcome : AttemptResult σ
deriving DecidableEq, Repr

/-- The retry loop body; `idx` is the index of the attempt about to run,
`retriesLeft` mirrors `retries_left`, `delay` mirrors `delay`. -/
def retryAux (openStream : Nat → AttemptResult σ) (idx retriesLeft : Nat) (delay : ℚ)
    (sleeps : List ℚ) : RetryResult σ :=
  match openStream idx with
  | .ok s => ⟨idx + 1, sleeps, .ok s⟩
  | .terminal e => ⟨idx + 1, sleeps, .terminal e⟩
  | .transient e =>
    if retriesLeft - 1 = 0 then ⟨idx + 1, sleeps, .transient e⟩
    else retryAux openStream (idx + 1) (retriesLeft - 1) (delay * 2) (sleeps ++ [delay])
  termination_by retriesLeft
  decreasing_by omega

/-- The retry controller as entered by the code: budget 5, initial delay 0.5. -/
def retryRun (openStream : Nat → AttemptResult σ) : RetryResult σ :=
  retryAux openStream 0 5 (1 / 2) []

/-- **C3.** If every attempt to open the stream fails with a transient error,
the controller makes exactly 5 attempts, sleeps 0.5, 1, 2, 4 between
consecutive attempts, and finally propagates the error of the fifth attempt. -/
theorem retry_exhaustion {σ : Type} (openStream : Nat → AttemptResult σ) (es : Nat → Str)
    (h : ∀ n, n < 5 → openStream n = .transient (es n)) :
    retryRun openStream =
      ⟨5, [1 / 2, 1, 2, 4], .transient (es 4)⟩ := by
  have h0 := h 0 (by omega)
  have h1 := h 1 (by omega)
  have h2 := h 2 (by omega)
  have h3 := h 3 (by omega)
  have h4 := h 4 (by omega)
  rw [retryRun, retryAux, h0]
  norm_num
  rw [retryAux, h1]
  norm_num
  rw [retryAux, h2]
  norm_num
  rw [retryAux, h3]
  norm_num
  rw [retryAux, h4]
  norm_num

/-- Witness for C3: a concrete always-transient opener. -/
theorem retry_exhaustion_witness :
    retryRun (σ := Unit) (fun n => .transient (natToStr n)) =
      ⟨5, [1 / 2, 1, 2, 4], .transient (natToStr 4)⟩ :=
  retry_exhaustion (fun n => .transient (natToStr n)) natToStr (fun _ _ => rfl)

/-! ## Diff engine (`Diff`, cli.py lines 41-68)

`Diff` calls `difflib.unified_diff(old.splitlines(keepends=True),
new.splitlines(keepends=True), fromfile, tofile)` and joins the resulting
lines (`plain()`).  The matcher below embeds CPython's
`SequenceMatcher(None, a, b)` (with `autojunk`, no junk predicate — so the
`bjunk` set is empty and the two junk-extension loops of
`find_longest_match` never fire), `get_matching_blocks`, `get_opcodes`,
`get_grouped_opcodes(3)` and the `unified_diff` line generation.  Text is
modelled after universal-newline translation, with `'\n'` as the only line
separator. -/

/-- A line of text (a Python string). -/
abbrev Line := Str

/-- Text-mode `f.readlines()`: after universal-newline decoding, file
iteration splits on `'\n'` only (keeping it), unlike `str.splitlines`. -/
def splitKeepNL : Str → List Line
  | [] => []
  | c :: rest =>
    if c = '\n' then ['\n'] :: splitKeepNL rest
    else
      match splitKeepNL rest with
      | [] => [[c]]
      | l :: ls => (c :: l) :: ls

/-- The line-boundary characters of `str.splitlines`: `\n`, `\r` (and the
two-character `\r\n`), `\v`, `\f`, `\x1c`, `\x1d`, `\x1e`, `\x85`,
`U+2028`, `U+2029`. -/
def isLineBreak (c : Char) : Bool :=
  c == '\n' || c == '\r' || c == '\x0b' || c == '\x0c' || c == '\x1c' ||
  c == '\x1d' || c == '\x1e' || c == '\x85' || c == '\u2028' || c == '\u2029'

/-- The worker of `splitLines`; the fuel only bounds the recursion depth
and any `fuel ≥ length` is enough (each step consumes at least one
character). -/
def splitLinesF : Nat → Str → List Line
  | _, [] => []
  | 0, s => [s]
  | fuel + 1, c :: rest =>
    if c = '\r' then
      if rest.head? = some '\n' then ['\r', '\n'] :: splitLinesF fuel rest.tail
      else ['\r'] :: splitLinesF fuel rest
    else if isLineBreak c then [c] :: splitLinesF fuel rest
    else
      match splitLinesF fuel rest with
      | [] => [[c]]
      | l :: ls => (c :: l) :: ls

/-- `s.splitlines(keepends=True)`: every line-boundary character ends a
line, with `'\r\n'` kept together as a single terminator. -/
def splitLines (s : Str) : List Line := splitLinesF s.length s

/-- Every line-boundary character of `s` is a plain `'\n'` (so
`str.splitlines` and text-mode `readlines` agree on `s`). -/
def onlyNL (s : Str) : Bool := s.all (fun c => !(isLineBreak c) || c == '\n')

/-- `s` contains no line-boundary character at all. -/
def noBreak (s : Str) : Bool := s.all (fun c => !(isLineBreak c))

/-- `l[i:j]` on a Python list (for `0 ≤ i ≤ j`). -/
def slice (l : List α) (i j : Nat) : List α := (l.drop i).take (j - i)

/-- `SequenceMatcher.b2j.get(x, [])`: the ascending indices of `x` in `b`,
with the `autojunk` heuristic dropping popular elements of sequences of
length ≥ 200. -/
def b2jGet (b : List Line) (x : Line) : List Nat :=
  let idxs := (List.range b.length).filter (fun j => b.getD j [] = x)
  if 200 ≤ b.length ∧ b.length / 100 + 1 < idxs.length then [] else idxs

/-- The running best match of `find_longest_match`. -/
structure Best where
  besti : Nat
  bestj : Nat
  bestsize : Nat
deriving DecidableEq, Repr

/-- Lookup in the `j2len` dict with default 0. -/
def lookupD (m : List (Nat × Nat)) (k : Nat) : Nat :=
  ((m.find? (fun p => p.1 = k)).map Prod.snd).getD 0

/-- The inner `for j in b2j.get(a[i], nothing)` loop of `find_longest_match`;
`j < blo` is `continue`, `j >= bhi` is `break` (the index list is ascending). -/
def flmInner (j2len : List (Nat × Nat)) (blo bhi i : Nat) :
    List Nat → List (Nat × Nat) → Best → List (Nat × Nat) × Best
  | [], newj2len, st => (newj2len, st)
  | j :: js, newj2len, st =>
    if j < blo then flmInner j2len blo bhi i js newj2len st
    else if bhi ≤ j then (newj2len, st)
    else
      let k := (if j = 0 then 0 else lookupD j2len (j - 1)) + 1
      let st' := if st.bestsize < k then ⟨i + 1 - k, j + 1 - k, k⟩ else st
      flmInner j2len blo bhi i js ((j, k) :: newj2len) st'

/-- The outer `for i in range(alo, ahi)` loop of `find_longest_match`. -/
def flmOuter (a b : List Line) (blo bhi : Nat) :
    List Nat → List (Nat × Nat) → Best → Best
  | [], _, st => st
  | i :: is, j2len, st =>
    let r := flmInner j2len blo bhi i (b2jGet b (a.getD i [])) [] st
    flmOuter a b blo bhi is r.1 r.2

/-- First extension loop: grow the best match downwards over equal elements
(`bjunk` is empty, so the junk test is vacuous).  Each iteration decrements
`besti`, so `besti` iterations of fuel always suffice. -/
def extendLowerF (a b : List Line) (alo blo : Nat) : Nat → Best → Best
  | 0, st => st
  | fuel + 1, st =>
    if alo < st.besti ∧ blo < st.bestj ∧
        a.getD (st.besti - 1) [] = b.getD (st.bestj - 1) [] then
      extendLowerF a b alo blo fuel ⟨st.besti - 1, st.bestj - 1, st.bestsize + 1⟩
    else st

/-- The first extension loop entered with adequate fuel. -/
def extendLower (a b : List Line) (alo blo : Nat) (st : Best) : Best :=
  extendLowerF a b alo blo st.besti st

/-- Second extension loop: grow the best match upwards over equal elements.
Each iteration increments `bestsize` while `besti + bestsize < ahi`, so
`ahi` iterations of fuel always suffice. -/
def extendUpperF (a b : List Line) (ahi bhi : Nat) : Nat → Best → Best
  | 0, st => st
  | fuel + 1, st =>
    if st.besti + st.bestsize < ahi ∧ st.bestj + st.bestsize < bhi ∧
        a.getD (st.besti + st.bestsize) [] = b.getD (st.bestj + st.bestsize) [] then
      extendUpperF a b ahi bhi fuel ⟨st.besti, st.bestj, st.bestsize + 1⟩
    else st

/-- The second extension loop entered with adequate fuel. -/
def extendUpper (a b : List Line) (ahi bhi : Nat) (st : Best) : Best :=
  extendUpperF a b ahi bhi ahi st

/-- `SequenceMatcher.find_longest_match(alo, ahi, blo, bhi)`. -/
def findLongestMatch (a b : List Line) (alo ahi blo bhi : Nat) : Best :=
  let st := flmOuter a b blo bhi (List.range' alo (ahi - alo)) [] ⟨alo, blo, 0⟩
  extendUpper a b ahi bhi (extendLower a b alo blo st)

/-- The `while queue` loop of `get_matching_blocks`; the head of the list is
the top of the stack (`queue.pop()` pops the most recently pushed rectangle,
which is the upper-right one).  `fuel` strictly exceeds the number of loop
iterations, which is bounded by `2 * len(a) + 1`. -/
def gmbLoop (a b : List Line) :
    Nat → List (Nat × Nat × Nat × Nat) → List (Nat × Nat × Nat) → List (Nat × Nat × Nat)
  | 0, _, acc => acc
  | _ + 1, [], acc => acc
  | fuel + 1, (alo, ahi, blo, bhi) :: rest, acc =>
    let st := findLongestMatch a b alo ahi blo bhi
    if st.bestsize = 0 then gmbLoop a b fuel rest acc
    else
      gmbLoop a b fuel
        ((if st.besti + st.bestsize < ahi ∧ st.bestj + st.bestsize < bhi
          then [(st.besti + st.bestsize, ahi, st.bestj + st.bestsize, bhi)] else []) ++
         (if alo < st.besti ∧ blo < st.bestj
          then [(alo, st.besti, blo, st.bestj)] else []) ++ rest)
        (acc ++ [(st.besti, st.bestj, st.bestsize)])

/-- Lexicographic `≤` on matching-block triples (Python tuple sort order). -/
def blockLE (x y : Nat × Nat × Nat) : Bool :=
  decide (x.1 < y.1 ∨ (x.1 = y.1 ∧ (x.2.1 < y.2.1 ∨ (x.2.1 = y.2.1 ∧ x.2.2 ≤ y.2.2))))

/-- Insert into a `le`-sorted list, after any equal element. -/
def insertSorted (le : α → α → Bool) (x : α) : List α → List α
  | [] => [x]
  | y :: ys => if le y x then y :: insertSorted le x ys else x :: y :: ys

/-- Insertion sort, modelling Python's `list.sort()` (the matching blocks
are pairwise distinct, so any lexicographic sort yields the same list). -/
def insertionSort (le : α → α → Bool) : List α → List α
  | [] => []
  | x :: xs => insertSorted le x (insertionSort le xs)

/-- The adjacency-merging second phase of `get_matching_blocks`. -/
def nonAdjacent : Nat → Nat → Nat → List (Nat × Nat × Nat) → List (Nat × Nat × Nat)
  | i1, j1, k1, [] => if k1 ≠ 0 then [(i1, j1, k1)] else []
  | i1, j1, k1, (i2, j2, k2) :: rest =>
    if i1 + k1 = i2 ∧ j1 + k1 = j2 then nonAdjacent i1 j1 (k1 + k2) rest
    else (if k1 ≠ 0 then [(i1, j1, k1)] else []) ++ nonAdjacent i2 j2 k2 rest

/-- `SequenceMatcher.get_matching_blocks()`. -/
def getMatchingBlocks (a b : List Line) : List (Nat × Nat × Nat) :=
  let mb := gmbLoop a b (2 * a.length + 2) [(0, a.length, 0, b.length)] []
  nonAdjacent 0 0 0 (insertionSort blockLE mb) ++ [(a.length, b.length, 0)]

/-- Diff opcode tags. -/
inductive Tag where
  | replace
  | delete
  | insert
  | equal
deriving DecidableEq, Repr

/-- One `(tag, i1, i2, j1, j2)` opcode. -/
structure Opcode where
  tag : Tag
  i1 : Nat
  i2 : Nat
  j1 : Nat
  j2 : Nat
deriving DecidableEq, Repr

/-- The non-equal opcode `get_opcodes` emits before a matching block
(`replace`/`delete`/`insert` depending on which gaps are non-empty). -/
def preOps (i j ai bj : Nat) : List Opcode :=
  if i < ai ∧ j < bj then [⟨.replace, i, ai, j, bj⟩]
  else if i < ai then [⟨.delete, i, ai, j, bj⟩]
  else if j < bj then [⟨.insert, i, ai, j, bj⟩]
  else []

/-- `SequenceMatcher.get_opcodes()` over the matching blocks. -/
def getOpcodesAux : Nat → Nat → List (Nat × Nat × Nat) → List Opcode
  | _, _, [] => []
  | i, j, (ai, bj, size) :: rest =>
    preOps i j ai bj ++
    (if size ≠ 0 then [⟨.equal, ai, ai + size, bj, bj + size⟩] else []) ++
    getOpcodesAux (ai + size) (bj + size) rest

/-- `get_opcodes` entered at `(0, 0)`. -/
def getOpcodes (blocks : List (Nat × Nat × Nat)) : List Opcode :=
  getOpcodesAux 0 0 blocks

/-- Head trimming of `get_grouped_opcodes`: shrink a leading equal opcode
to at most `n` lines of context. -/
def trimHead (n : Nat) : List Opcode → List Opcode
  | [] => []
  | op :: rest =>
    if op.tag = .equal then
      ⟨.equal, max op.i1 (op.i2 - n), op.i2, max op.j1 (op.j2 - n), op.j2⟩ :: rest
    else op :: rest

/-- Tail trimming of `get_grouped_opcodes`: shrink a trailing equal opcode. -/
def trimTail (n : Nat) : List Opcode → List Opcode
  | [] => []
  | [op] =>
    if op.tag = .equal then
      [⟨.equal, op.i1, min op.i2 (op.i1 + n), op.j1, min op.j2 (op.j1 + n)⟩]
    else [op]
  | op :: rest => op :: trimTail n rest

/-- The group-splitting fold of `get_grouped_opcodes`: a big equal opcode
(more than `2n` lines) ends the current group and starts the next one. -/
def groupSplit (n : Nat) : List Opcode → List Opcode → List (List Opcode)
  | group, [] =>
    if group ≠ [] ∧ ¬(group.length = 1 ∧ group.head?.map Opcode.tag = some .equal)
    then [group] else []
  | group, op :: rest =>
    if op.tag = .equal ∧ 2 * n < op.i2 - op.i1 then
      (group ++ [⟨.equal, op.i1, min op.i2 (op.i1 + n), op.j1, min op.j2 (op.j1 + n)⟩]) ::
        groupSplit n [⟨.equal, max op.i1 (op.i2 - n), op.i2, max op.j1 (op.j2 - n), op.j2⟩] rest
    else groupSplit n (group ++ [op]) rest

/-- `SequenceMatcher.get_grouped_opcodes(n)` (the generator, collected). -/
def getGroupedOpcodes (n : Nat) (codes : List Opcode) : List (List Opcode) :=
  let codes := if codes = [] then [⟨.equal, 0, 1, 0, 1⟩] else codes
  groupSplit n [] (trimTail n (trimHead n codes))

/-- `difflib._format_range_unified(start, stop)`. -/
def formatRangeUnified (start stop : Nat) : Str :=
  let beginning := start + 1
  let length := stop - start
  if length = 1 then natToStr beginning
  else natToStr (if length = 0 then beginning - 1 else beginning) ++ [','] ++ natToStr length

/-- The body lines contributed by one opcode in `unified_diff`. -/
def opcodeLines (a b : List Line) (op : Opcode) : List Str :=
  match op.tag with
  | .equal => (slice a op.i1 op.i2).map (fun l => ' ' :: l)
  | .replace => (slice a op.i1 op.i2).map (fun l => '-' :: l) ++
                (slice b op.j1 op.j2).map (fun l => '+' :: l)
  | .delete => (slice a op.i1 op.i2).map (fun l => '-' :: l)
  | .insert => (slice b op.j1 op.j2).map (fun l => '+' :: l)

/-- The lines of one hunk: the `@@` header followed by the body. -/
def hunkLines (a b : List Line) (group : List Opcode) : List Str :=
  match group with
  | [] => []
  | first :: rest =>
    let last := (first :: rest).getLast (by simp)
    (str "@@ -" ++ formatRangeUnified first.i1 last.i2 ++ str " +" ++
      formatRangeUnified first.j1 last.j2 ++ str " @@" ++ ['\n'])
      :: group.flatMap (opcodeLines a b)

/-- `difflib.unified_diff(a, b, fromfile, tofile)` with default context
`n = 3` and `lineterm='\n'`: the two `---`/`+++` header lines are emitted
once before the first group; no groups means no output at all. -/
def unifiedDiff (a b : List Line) (fromfile tofile : Str) : List Str :=
  let groups := getGroupedOpcodes 3 (getOpcodes (getMatchingBlocks a b))
  if groups = [] then []
  else (str "--- " ++ fromfile ++ ['\n']) :: (str "+++ " ++ tofile ++ ['\n']) ::
    groups.flatMap (hunkLines a b)

/-- `Diff(old, new, old_file, new_file).plain()`: the joined diff text over
the `str.splitlines(keepends=True)` images of the two contents. -/
def diffPlain (old_content new_content old_file new_file : Str) : Str :=
  (unifiedDiff (splitLines old_content) (splitLines new_content) old_file new_file).flatten

/-! ## Python string primitives used by the File Editor -/

/-- Python `needle in hay` (substring containment; `'' in s` is `True`). -/
def pyIn (hay needle : Str) : Bool :=
  needle.isPrefixOf hay ||
  match hay with
  | [] => false
  | _ :: rest => pyIn rest needle

/-- `str.count` for a non-empty needle: non-overlapping occurrences, scanning
left to right and skipping the needle's length after each match (for a
non-empty needle, `(c :: rest).drop needle.length = rest.drop (needle.length - 1)`).
Each step consumes at least one character, so `hay.length` fuel suffices. -/
def pyCountAux (needle : Str) : Nat → Str → Nat
  | 0, _ => 0
  | _, [] => 0
  | fuel + 1, c :: rest =>
    if needle.isPrefixOf (c :: rest) then
      1 + pyCountAux needle fuel (rest.drop (needle.length - 1))
    else pyCountAux needle fuel rest

/-- Python `hay.count(needle)` (`s.count('') == len(s) + 1`). -/
def pyCount (hay needle : Str) : Nat :=
  if needle = [] then hay.length + 1 else pyCountAux needle hay.length hay

/-- `hay.replace(needle, repl, 1)` for a non-empty needle. -/
def pyReplaceFirstAux (needle repl : Str) : Str → Str
  | [] => []
  | c :: rest =>
    if needle.isPrefixOf (c :: rest) then repl ++ rest.drop (needle.length - 1)
    else c :: pyReplaceFirstAux needle repl rest

/-- Python `hay.replace(needle, repl, 1)` (an empty needle inserts at the front). -/
def pyReplaceFirst (hay needle repl : Str) : Str :=
  if needle = [] then repl ++ hay else pyReplaceFirstAux needle repl hay

theorem pyCountAux_eq_zero_of_not_in {needle : Str} :
    ∀ (fuel : Nat) (hay : Str), pyIn hay needle = false →
      pyCountAux needle fuel hay = 0 := by
  intro fuel
  induction fuel with
  | zero => intro hay _; cases hay <;> rfl
  | succ fuel ih =>
    intro hay hin
    cases hay with
    | nil => rfl
    | cons c rest =>
      rw [pyIn, Bool.or_eq_false_iff] at hin
      rw [pyCountAux, if_neg (by simp [hin.1]), ih rest hin.2]

theorem pyIn_of_count_pos {hay needle : Str} (h : 0 < pyCount hay needle) :
    pyIn hay needle = true := by
  by_cases hne : needle = []
  · subst hne
    cases hay <;> simp [pyIn, List.isPrefixOf]
  · rw [pyCount, if_neg hne] at h
    by_contra hin
    rw [Bool.not_eq_true] at hin
    rw [pyCountAux_eq_zero_of_not_in hay.length hay hin] at h
    omega

/-! ## File Editor (`EditTool.__call__`, cli.py lines 399-452) -/

/-- Outcome of a fallible tool step: a value, or a raised `ToolError`
carrying its message. -/
inductive TRes (α : Type) where
  | ok (v : α)
  | err (msg : Str)
deriving DecidableEq, Repr

/-- The success payload `{'success': True, 'diff': diff.plain()}`. -/
structure EditResult where
  success : Bool
  diff : Str
deriving DecidableEq, Repr

/-- Result and post-state of one File Editor invocation. -/
structure EditOutcome where
  result : TRes EditResult
  fileContent : Str
deriving DecidableEq, Repr

/-- `EditTool.__call__` after its filesystem precondition checks (absolute
path, exists, regular file, readable, writable) have passed, as a function
of the file's current content.  `gate` is the confirmation-gate outcome:
`.ok ()` when `--skip-permissions` is set or the user accepts, `.error msg`
with the rejection `ToolError` message otherwise.  `fileContent` is the
content of the file after the call (written back only on success). -/
def editToolCore (file_path old_content old_string new_string : Str)
    (gate : TRes Unit) : EditOutcome :=
  if pyIn old_content old_string = false then
    ⟨.err (str "old_string not found in file."), old_content⟩
  else if 1 < pyCount old_content old_string then
    ⟨.err (str "old_string appears multiple times in file. It must be unique."), old_content⟩
  else
    let new_content := pyReplaceFirst old_content old_string new_string
    match gate with
    | .err e => ⟨.err e, old_content⟩
    | .ok _ => ⟨.ok ⟨true, diffPlain old_content new_content file_path file_path⟩, new_content⟩

/-- **C4.** On an existing readable writable regular file: a non-occurring
`old_string` raises the not-found `ToolError`; an `old_string` occurring
more than once (Python `str.count`, the code's own occurrence counter)
raises the distinct ambiguity `ToolError` (same error kind, different
message); and a uniquely occurring `old_string`, once the gate accepts,
is replaced, the result is written back, and the call returns
`{'success': True, 'diff': <unified diff text>}`. -/
theorem edit_uniqueness (file_path old_content old_string new_string : Str)
    (gate : TRes Unit) :
    (pyIn old_content old_string = false →
      editToolCore file_path old_content old_string new_string gate =
        ⟨.err (str "old_string not found in file."), old_content⟩) ∧
    (1 < pyCount old_content old_string →
      editToolCore file_path old_content old_string new_string gate =
        ⟨.err (str "old_string appears multiple times in file. It must be unique."),
         old_content⟩) ∧
    str "old_string appears multiple times in file. It must be unique." ≠
      str "old_string not found in file." ∧
    (pyCount old_content old_string = 1 → gate = .ok () →
      editToolCore file_path old_content old_string new_string gate =
        ⟨.ok ⟨true, diffPlain old_content (pyReplaceFirst old_content old_string new_string)
                file_path file_path⟩,
         pyReplaceFirst old_content old_string new_string⟩) := by
  refine ⟨fun h => ?_, fun h => ?_, by decide, fun h hg => ?_⟩
  · rw [editToolCore, if_pos h]
  · have hin : pyIn old_content old_string = true := pyIn_of_count_pos (by omega)
    rw [editToolCore, if_neg (by simp [hin]), if_pos h]
  · have hin : pyIn old_content old_string = true := pyIn_of_count_pos (by omega)
    subst hg
    rw [editToolCore, if_neg (by simp [hin]), if_neg (by omega)]

/-- Witness for C4: the three branches at concrete inputs
(`"ab ab\n"` with needles `"xy"`, `"ab"`, `"b a"`). -/
theorem edit_uniqueness_witness :
    editToolCore (str "/f") (str "ab ab\n") (str "xy") (str "XY") (.ok ()) =
      ⟨.err (str "old_string not found in file."), str "ab ab\n"⟩ ∧
    editToolCore (str "/f") (str "ab ab\n") (str "ab") (str "XY") (.ok ()) =
      ⟨.err (str "old_string appears multiple times in file. It must be unique."),
       str "ab ab\n"⟩ ∧
    editToolCore (str "/f") (str "ab ab\n") (str "b a") (str "C") (.ok ()) =
      ⟨.ok ⟨true, diffPlain (str "ab ab\n") (str "aCb\n") (str "/f") (str "/f")⟩,
       str "aCb\n"⟩ := by
  refine ⟨(edit_uniqueness (str "/f") (str "ab ab\n") (str "xy") (str "XY") (.ok ())).1
      (by decide),
    (edit_uniqueness (str "/f") (str "ab ab\n") (str "ab") (str "XY") (.ok ())).2.1
      (by decide), ?_⟩
  have h := (edit_uniqueness (str "/f") (str "ab ab\n") (str "b a") (str "C")
    (.ok ())).2.2.2 (by decide) rfl
  rw [h]
  decide

/-! ## File Reader (`ReadTool.__call__`, cli.py lines 227-274) -/

/-- The line-truncation marker `f'... (truncated to {limit} lines)\n'`. -/
def lineTruncMarker (limit : Nat) : Str :=
  str "... (truncated to " ++ natToStr limit ++ str " lines)" ++ ['\n']

/-- The character-truncation marker `f'... (truncated to {chars_limit} chars)\n'`. -/
def charTruncMarker (chars_limit : Nat) : Str :=
  str "... (truncated to " ++ natToStr chars_limit ++ str " chars)" ++ ['\n']

/-- `full_lines[offset - 1:]`: the lines selected by the 1-based offset. -/
def readSelected (full_lines : List Line) (offset : Nat) : List Line :=
  full_lines.drop (offset - 1)

/-- The selected lines after the line-limit step: more than `limit` lines
keep the first `limit` and append the line-truncation marker. -/
def readLineTrunc (full_lines : List Line) (offset limit : Nat) : List Line :=
  let lines := readSelected full_lines offset
  if limit < lines.length then lines.take limit ++ [lineTruncMarker limit] else lines

/-- The `content` string after both truncation steps. -/
def readContent (full_lines : List Line) (offset limit chars_limit : Nat) : Str :=
  let content := (readLineTrunc full_lines offset limit).flatten
  if chars_limit < content.length then
    content.take chars_limit ++ charTruncMarker chars_limit
  else content

/-- `f'{offset+i:>6}\t{line}'`: right-align in width 6 and prepend a tab. -/
def numberLine (n : Nat) (line : Str) : Str :=
  List.replicate (6 - (natToStr n).length) ' ' ++ natToStr n ++ ['\t'] ++ line

/-- The `result_content` join: number the lines of `content` from `offset`. -/
def numberLines (offset : Nat) (content : Str) : Str :=
  (((splitKeepNL content).enum).map (fun p => numberLine (offset + p.1) p.2)).flatten

/-- The success payload of the File Reader. -/
structure ReadResult where
  content : Str
  total_lines : Nat
  total_chars : Nat
deriving DecidableEq, Repr

/-- `ReadTool.__call__` after the filesystem precondition checks, as a
function of the file's `readlines()` image (the file's content is
`full_lines.flatten`); returns the numbered, doubly-truncated content and
the untruncated totals. -/
def readToolCore (full_lines : List Line) (offset limit chars_limit : Nat) : ReadResult :=
  { content := numberLines offset (readContent full_lines offset limit chars_limit),
    total_lines := full_lines.length,
    total_chars := full_lines.flatten.length }

/-- **C5.** File Reader truncation: within both limits the selected content
is passed through untouched; passing the line limit appends exactly one
line-truncation marker after the first `limit` lines; passing the character
limit (after line truncation) cuts to `chars_limit` characters and appends
exactly one character-truncation marker, making the content length exactly
`chars_limit + len(marker)`; and `total_lines`/`total_chars` always describe
the untruncated file. -/
theorem read_truncation (full_lines : List Line) (offset limit chars_limit : Nat) :
    ((readSelected full_lines offset).length ≤ limit ∧
      (readSelected full_lines offset).flatten.length ≤ chars_limit →
      readContent full_lines offset limit chars_limit =
        (readSelected full_lines offset).flatten) ∧
    (limit < (readSelected full_lines offset).length →
      readLineTrunc full_lines offset limit =
        (readSelected full_lines offset).take limit ++ [lineTruncMarker limit]) ∧
    (chars_limit < (readLineTrunc full_lines offset limit).flatten.length →
      readContent full_lines offset limit chars_limit =
        (readLineTrunc full_lines offset limit).flatten.take chars_limit ++
          charTruncMarker chars_limit ∧
      (readContent full_lines offset limit chars_limit).length =
        chars_limit + (charTruncMarker chars_limit).length) ∧
    ((readToolCore full_lines offset limit chars_limit).total_lines = full_lines.length ∧
     (readToolCore full_lines offset limit chars_limit).total_chars =
       full_lines.flatten.length) := by
  refine ⟨fun ⟨h1, h2⟩ => ?_, fun h => ?_, fun h => ⟨?_, ?_⟩, rfl, rfl⟩
  · have hl : ¬ limit < (readSelected full_lines offset).length := by omega
    rw [readContent, readLineTrunc, if_neg hl, if_neg (by omega)]
  · rw [readLineTrunc, if_pos h]
  · rw [readContent, if_pos h]
  · rw [readContent, if_pos h]
    rw [List.length_append, List.length_take]
    omega

/-- Witness for C5 at a concrete 3-line file, hitting both truncations and
the untouched case. -/
theorem read_truncation_witness :
    (readContent [str "aa", str "bb"] 1 1000 65536 = str "aabb") ∧
    (readLineTrunc [str "aa", str "bb", str "cc"] 1 2 =
      [str "aa", str "bb", lineTruncMarker 2]) ∧
    (readContent [str "aa", str "bb", str "cc"] 1 2 4 =
      str "aabb" ++ charTruncMarker 4 ∧
     (readContent [str "aa", str "bb", str "cc"] 1 2 4).length =
      4 + (charTruncMarker 4).length) := by
  refine ⟨(read_truncation [str "aa", str "bb"] 1 1000 65536).1 (by decide), ?_, ?_⟩
  · exact (read_truncation [str "aa", str "bb", str "cc"] 1 2 65536).2.1 (by decide)
  · have h := (read_truncation [str "aa", str "bb", str "cc"] 1 2 4).2.2.1 (by decide)
    refine ⟨?_, h.2⟩
    rw [h.1]
    decide

/-! ## JSON values and `json.dumps`

Tool results are JSON-serializable values; `json.dumps` is modelled with
its defaults: separators `', '` and `': '`, `ensure_ascii=True` (every
character outside `0x20..0x7e` is `\uXXXX`-escaped, astral characters as
surrogate pairs). -/

/-- A JSON value. -/
inductive Json where
  | null
  | bool (b : Bool)
  | num (n : Int)
  | str (s : Str)
  | arr (xs : List Json)
  | obj (kvs : List (Str × Json))

/-- Lowercase hexadecimal digit. -/
def hexDigit (n : Nat) : Char := Char.ofNat (if n < 10 then 48 + n else 87 + n)

/-- Four lowercase hex digits. -/
def hex4 (n : Nat) : Str :=
  [hexDigit (n / 4096 % 16), hexDigit (n / 256 % 16), hexDigit (n / 16 % 16), hexDigit (n % 16)]

/-- `json.dumps` escaping of one character (`ensure_ascii=True`). -/
def escapeChar (c : Char) : Str :=
  if c = '"' then ['\\', '"']
  else if c = '\\' then ['\\', '\\']
  else if c = '\n' then ['\\', 'n']
  else if c = '\t' then ['\\', 't']
  else if c = '\r' then ['\\', 'r']
  else if c.toNat = 8 then ['\\', 'b']
  else if c.toNat = 12 then ['\\', 'f']
  else if c.toNat < 32 ∨ 126 < c.toNat then
    if c.toNat < 65536 then '\\' :: 'u' :: hex4 c.toNat
    else
      let v := c.toNat - 65536
      ('\\' :: 'u' :: hex4 (55296 + v / 1024)) ++ ('\\' :: 'u' :: hex4 (56320 + v % 1024))
  else [c]

/-- Escape a whole string. -/
def jsonEscape (s : Str) : Str := (s.map escapeChar).flatten

/-- Decimal rendering of an integer. -/
def intToStr (n : Int) : Str :=
  if n < 0 then '-' :: natToStr n.natAbs else natToStr n.natAbs

/-- Join with the `', '` item separator. -/
def joinComma : List Str → Str
  | [] => []
  | [x] => x
  | x :: y :: rest => x ++ ',' :: ' ' :: joinComma (y :: rest)

mutual

/-- `json.dumps` with default separators and `ensure_ascii=True`. -/
def Json.dumps : Json → Str
  | .null => str "null"
  | .bool true => str "true"
  | .bool false => str "false"
  | .num n => intToStr n
  | .str s => '"' :: (jsonEscape s ++ ['"'])
  | .arr xs => '[' :: (joinComma (dumpsList xs) ++ [']'])
  | .obj kvs => Char.ofNat 123 :: (joinComma (dumpsObj kvs) ++ [Char.ofNat 125])

/-- Serialized array elements, in order. -/
def dumpsList : List Json → List Str
  | [] => []
  | x :: xs => x.dumps :: dumpsList xs

/-- Serialized `"key": value` object members, in order. -/
def dumpsObj : List (Str × Json) → List Str
  | [] => []
  | (k, v) :: kvs => ('"' :: (jsonEscape k ++ '"' :: ':' :: ' ' :: v.dumps)) :: dumpsObj kvs

end

/-- `json.dumps({'error': msg})`: the error payload every failed tool call
is converted to. -/
def errPayload (msg : Str) : Str := (Json.obj [(str "error", Json.str msg)]).dumps

/-! ## Tool dispatcher (cli.py lines 843-887)

The `for tool_call in tool_calls` loop: resolve the tool by name
(`KeyError` → `ToolError('Unknown tool.')`), `json.loads` the argument
string (`JSONDecodeError` → `ToolError(f'Invalid arguments: {e}')`),
`jsonschema.validate` (`ValidationError` → `ToolError(f'Invalid arguments:
{e.message}')`), invoke the tool; `ToolError` and any other non-interrupt
exception become an error tool message; `KeyboardInterrupt`/`EOFError`
re-raise, aborting the remaining calls of the turn. -/

/-- Outcome of invoking a tool body. -/
inductive InvokeResult where
  | ok (j : Json)
  | toolError (msg : Str)
  | exc (rep : Str)
  | interrupt

/-- The dispatcher's collaborators: the tool table, `json.loads` (returning
the decode-error text on failure), `jsonschema.validate` for the named
tool's schema (returning `e.message` on failure), and tool invocation. -/
structure DispatchEnv where
  hasTool : Str → Bool
  parseArgs : Str → TRes Json
  validate : Str → Json → TRes Unit
  invoke : Str → Json → InvokeResult

/-- The tool message appended for request `id` with serialized `content`. -/
def toolMsg (id : Str) (content : Str) : Message :=
  { role := str "tool", tool_call_id := some id, content := content }

/-- Dispatch one `ToolCallRequest`; `none` models an interrupt escaping the
dispatcher (no tool message is appended for this request). -/
def dispatchOne (env : DispatchEnv) (tc : ToolCallReq) : Option Message :=
  if env.hasTool tc.name = false then
    some (toolMsg tc.id (errPayload (str "Unknown tool.")))
  else
    match env.parseArgs tc.arguments with
    | .err e => some (toolMsg tc.id (errPayload (str "Invalid arguments: " ++ e)))
    | .ok args =>
      match env.validate tc.name args with
      | .err e => some (toolMsg tc.id (errPayload (str "Invalid arguments: " ++ e)))
      | .ok _ =>
        match env.invoke tc.name args with
        | .ok r => some (toolMsg tc.id r.dumps)
        | .toolError m => some (toolMsg tc.id (errPayload m))
        | .exc rep => some (toolMsg tc.id (errPayload rep))
        | .interrupt => none

/-- Dispatch all requests of a completed assistant message in order; an
interrupt aborts the remaining requests, keeping earlier results. -/
def dispatchAll (env : DispatchEnv) : List ToolCallReq → List Message
  | [] => []
  | tc :: rest =>
    match dispatchOne env tc with
    | none => []
    | some m => m :: dispatchAll env rest

theorem dispatchOne_spec (env : DispatchEnv) (tc : ToolCallReq)
    (h : ∀ args, env.invoke tc.name args ≠ .interrupt) :
    ∃ m, dispatchOne env tc = some m ∧ m.role = str "tool" ∧
      m.tool_call_id = some tc.id ∧
      ((∃ args j, env.hasTool tc.name = true ∧ env.parseArgs tc.arguments = .ok args ∧
          env.validate tc.name args = .ok () ∧ env.invoke tc.name args = .ok j ∧
          m.content = j.dumps) ∨
        (∃ e, m.content = errPayload e)) := by
  unfold dispatchOne
  split
  next ht => exact ⟨_, rfl, rfl, rfl, .inr ⟨_, rfl⟩⟩
  next ht =>
    split
    next e hp => exact ⟨_, rfl, rfl, rfl, .inr ⟨_, rfl⟩⟩
    next args hp =>
      split
      next e hv => exact ⟨_, rfl, rfl, rfl, .inr ⟨_, rfl⟩⟩
      next u hv =>
        split
        next j hi =>
          exact ⟨_, rfl, rfl, rfl, .inl ⟨args, j, by simpa using ht, hp, by
            cases u; exact hv, hi, rfl⟩⟩
        next m hi => exact ⟨_, rfl, rfl, rfl, .inr ⟨_, rfl⟩⟩
        next rep hi => exact ⟨_, rfl, rfl, rfl, .inr ⟨_, rfl⟩⟩
        next hi => exact absurd hi (h args)

theorem dispatchAll_length (env : DispatchEnv) (tcs : List ToolCallReq)
    (h : ∀ tc ∈ tcs, ∀ args, env.invoke tc.name args ≠ .interrupt) :
    (dispatchAll env tcs).length = tcs.length := by
  induction tcs with
  | nil => rfl
  | cons tc rest ih =>
    obtain ⟨m, hm, -⟩ := dispatchOne_spec env tc (h tc (List.mem_cons_self tc rest))
    rw [dispatchAll, hm, List.length_cons, List.length_cons,
      ih (fun tc' htc' => h tc' (List.mem_cons_of_mem tc htc'))]

theorem dispatchAll_getElem? (env : DispatchEnv) (tcs : List ToolCallReq)
    (h : ∀ tc ∈ tcs, ∀ args, env.invoke tc.name args ≠ .interrupt) :
    ∀ (k : Nat) (tc : ToolCallReq), tcs[k]? = some tc →
      ∃ m : Message, (dispatchAll env tcs)[k]? = some m ∧ m.role = str "tool" ∧
        m.tool_call_id = some tc.id ∧
        ((∃ args j, env.hasTool tc.name = true ∧ env.parseArgs tc.arguments = .ok args ∧
            env.validate tc.name args = .ok () ∧ env.invoke tc.name args = .ok j ∧
            m.content = j.dumps) ∨
          (∃ e, m.content = errPayload e)) := by
  induction tcs with
  | nil => intro k tc htc; simp at htc
  | cons tc0 rest ih =>
    intro k tc htc
    obtain ⟨m0, hm0, hrole0, hid0, hc0⟩ :=
      dispatchOne_spec env tc0 (h tc0 (List.mem_cons_self tc0 rest))
    cases k with
    | zero =>
      rw [List.getElem?_cons_zero, Option.some_inj] at htc
      subst htc
      exact ⟨m0, by rw [dispatchAll, hm0, List.getElem?_cons_zero], hrole0, hid0, hc0⟩
    | succ k =>
      rw [List.getElem?_cons_succ] at htc
      obtain ⟨m, hm, hrest⟩ :=
        ih (fun tc' htc' => h tc' (List.mem_cons_of_mem tc0 htc')) k tc htc
      exact ⟨m, by rw [dispatchAll, hm0, List.getElem?_cons_succ]; exact hm, hrest⟩

/-- **C2.** For every request of a completed assistant message, provided no
invocation raises an interrupt, the dispatcher appends exactly one
tool-role message keyed by the request's id, whose content is the
JSON-serialized result on success and a `{"error": <message>}` payload on
any failure; a request naming an unknown tool yields exactly
`{"error": "Unknown tool."}` for every choice of parser, validator and
invoker (the tool is never invoked), and no failure aborts the turn: all
requests are answered. -/
theorem dispatch_per_request (env : DispatchEnv) (tcs : List ToolCallReq)
    (h : ∀ tc ∈ tcs, ∀ args, env.invoke tc.name args ≠ .interrupt) :
    (dispatchAll env tcs).length = tcs.length ∧
    (∀ (k : Nat) (tc : ToolCallReq), tcs[k]? = some tc →
      ∃ m : Message, (dispatchAll env tcs)[k]? = some m ∧ m.role = str "tool" ∧
        m.tool_call_id = some tc.id ∧
        ((∃ args j, env.hasTool tc.name = true ∧ env.parseArgs tc.arguments = .ok args ∧
            env.validate tc.name args = .ok () ∧ env.invoke tc.name args = .ok j ∧
            m.content = j.dumps) ∨
          (∃ e, m.content = errPayload e))) ∧
    (∀ (env2 : DispatchEnv) (tc : ToolCallReq), env2.hasTool = env.hasTool →
      env.hasTool tc.name = false →
      dispatchOne env2 tc = some (toolMsg tc.id (errPayload (str "Unknown tool.")))) :=
  ⟨dispatchAll_length env tcs h, dispatchAll_getElem? env tcs h,
    fun env2 tc he ht => by rw [dispatchOne, he, if_pos ht]⟩

/-- Witness for C2: a two-request batch (one unknown tool, one success). -/
theorem dispatch_per_request_witness :
    let env : DispatchEnv :=
      { hasTool := fun n => n = str "Edit",
        parseArgs := fun _ => .ok Json.null,
        validate := fun _ _ => .ok (),
        invoke := fun _ _ => .ok (Json.obj [(str "success", Json.bool true)]) }
    let tcs : List ToolCallReq := [⟨str "call_1", str "Nope", str ""⟩,
                                   ⟨str "call_2", str "Edit", str "{}"⟩]
    (dispatchAll env tcs).length = 2 ∧
    (dispatchAll env tcs)[0]? = some (toolMsg (str "call_1")
      (errPayload (str "Unknown tool."))) ∧
    (∃ m, (dispatchAll env tcs)[1]? = some m ∧ m.role = str "tool" ∧
      m.tool_call_id = some (str "call_2")) := by
  intro env tcs
  obtain ⟨hlen, hper, hunk⟩ := dispatch_per_request env tcs
    (fun tc htc args hint => by cases hint)
  refine ⟨hlen, ?_, ?_⟩
  · have h0 := hunk env ⟨str "call_1", str "Nope", str ""⟩ rfl (by decide)
    rw [dispatchAll, h0]
    rfl
  · obtain ⟨m, hm, hrole, hid, -⟩ := hper 1 ⟨str "call_2", str "Edit", str "{}"⟩ rfl
    exact ⟨m, hm, hrole, hid⟩

/-! ## Stream assembler (cli.py lines 696-771 and 797-824)

The `for chunk in stream` loop accumulates reasoning text (with the
`reasoning` → `reasoning_content` aliasing performed only when the delta
has no `reasoning_content` attribute at all), reasoning detail blocks,
visible content, tool-call fragments, the last finish reason and the last
usage snapshot; a chunk with no choices is skipped entirely.  The
assistant message then includes `reasoning_details`/`reasoning_content`
keys exactly when the corresponding `has_*` flag was set, i.e. when some
delta carried the attribute with a non-`None` value. -/

/-- One streamed tool-call fragment (`delta.tool_calls[k]`). -/
structure ToolCallFrag where
  id : Option Str
  name : Option Str
  arguments : Option Str
deriving DecidableEq, Repr

/-- One `chunk.choices[0].delta`.  For the two reasoning attributes the
outer `Option` models `hasattr` and the inner one a possibly-`None` value
(the code distinguishes a missing attribute from an attribute that is
`None`). -/
structure Delta where
  rcAttr : Option (Option Str)
  rAttr : Option (Option Str)
  reasoning_details : Option (List Str)
  content : Option Str
  tool_calls : Option (List ToolCallFrag)
  finish_reason : Option Str
deriving DecidableEq, Repr

/-- One stream chunk. -/
structure Chunk where
  choices : List Delta
  usage : Option Nat
deriving DecidableEq, Repr

/-- `delta.reasoning_content` after the aliasing block: if the delta has no
`reasoning_content` attribute but has `reasoning`, the latter is copied. -/
def effReasoning (d : Delta) : Option Str :=
  match d.rcAttr with
  | some v => v
  | none =>
    match d.rAttr with
    | some v => v
    | none => none

/-- The assembler's accumulator variables (cli.py lines 696-703). -/
structure AsmState where
  has_reasoning_content : Bool := false
  reasoning_content : Str := []
  has_reasoning_details : Bool := false
  reasoning_details : List Str := []
  content : Str := []
  tool_calls : List ToolCallReq := []
  finish_reason : Option Str := none
  usage : Option Nat := none
deriving DecidableEq, Repr

/-- Reasoning-text accumulation for one delta. -/
def stepReasoning (d : Delta) (st : AsmState) : AsmState :=
  match effReasoning d with
  | some s => { st with has_reasoning_content := true,
                        reasoning_content := st.reasoning_content ++ s }
  | none => st

/-- Reasoning-details accumulation for one delta. -/
def stepDetails (d : Delta) (st : AsmState) : AsmState :=
  match d.reasoning_details with
  | some l => { st with has_reasoning_details := true,
                        reasoning_details := st.reasoning_details ++ l }
  | none => st

/-- Visible-content accumulation (`if delta_content:` is falsy on `''`). -/
def stepContent (d : Delta) (st : AsmState) : AsmState :=
  match d.content with
  | some s => if s ≠ [] then { st with content := st.content ++ s } else st
  | none => st

/-- `tool_calls[-1][...] += ...`; an empty list raises `IndexError`. -/
def updLast (calls : List ToolCallReq) (f : ToolCallReq → ToolCallReq) :
    TRes (List ToolCallReq) :=
  match calls.getLast? with
  | none => .err (str "IndexError")
  | some l => .ok (calls.dropLast ++ [f l])

/-- Apply one tool-call fragment: a present `id` opens a new pending call,
then name/argument slices append to the most recently opened call. -/
def applyFrag (calls : List ToolCallReq) (fr : ToolCallFrag) : TRes (List ToolCallReq) :=
  let calls :=
    match fr.id with
    | some i => calls ++ [⟨i, [], []⟩]
    | none => calls
  match (match fr.name with
         | none => .ok calls
         | some nm => updLast calls (fun l => { l with name := l.name ++ nm }) :
           TRes (List ToolCallReq)) with
  | .err e => .err e
  | .ok calls2 =>
    match fr.arguments with
    | none => .ok calls2
    | some ar => updLast calls2 (fun l => { l with arguments := l.arguments ++ ar })

/-- Apply a delta's tool-call fragments in order. -/
def applyFrags (calls : List ToolCallReq) : List ToolCallFrag → TRes (List ToolCallReq)
  | [] => .ok calls
  | fr :: frs =>
    match applyFrag calls fr with
    | .err e => .err e
    | .ok calls2 => applyFrags calls2 frs

/-- Tool-call accumulation (`if delta_tool_calls:` is falsy on `None` and `[]`). -/
def stepToolCalls (d : Delta) (st : AsmState) : TRes AsmState :=
  match d.tool_calls with
  | some frs =>
    if frs ≠ [] then
      match applyFrags st.tool_calls frs with
      | .err e => .err e
      | .ok calls => .ok { st with tool_calls := calls }
    else .ok st
  | none => .ok st

/-- Finish-reason bookkeeping. -/
def stepFinish (d : Delta) (st : AsmState) : AsmState :=
  match d.finish_reason with
  | some fr => { st with finish_reason := some fr }
  | none => st

/-- Usage bookkeeping. -/
def stepUsage (ch : Chunk) (st : AsmState) : AsmState :=
  match ch.usage with
  | some u => { st with usage := some u }
  | none => st

/-- Process one chunk (`if not chunk.choices: continue` skips the whole
body, including the usage line). -/
def asmStep (st : AsmState) (ch : Chunk) : TRes AsmState :=
  match ch.choices with
  | [] => .ok st
  | d :: _ =>
    match stepToolCalls d (stepContent d (stepDetails d (stepReasoning d st))) with
    | .err e => .err e
    | .ok st2 => .ok (stepUsage ch (stepFinish d st2))

/-- Consume the whole finite stream. -/
def assembleAux : AsmState → List Chunk → TRes AsmState
  | st, [] => .ok st
  | st, ch :: rest =>
    match asmStep st ch with
    | .err e => .err e
    | .ok st2 => assembleAux st2 rest

/-- The assembler entered with the zero-initialised accumulators. -/
def assemble (chunks : List Chunk) : TRes AsmState := assembleAux {} chunks

/-- The assistant message built from the accumulators (cli.py lines
797-824): the reasoning keys are added only when the flags were set. -/
def buildAssistantMessage (st : AsmState) : Message :=
  { role := str "assistant",
    content := st.content,
    tool_calls := st.tool_calls,
    tool_call_id := none,
    reasoning_details := if st.has_reasoning_details then some st.reasoning_details else none,
    reasoning_content := if st.has_reasoning_content then some st.reasoning_content else none }

/-- Did the chunk's first delta carry a (non-`None`) `reasoning_details`? -/
def chunkHasRD (ch : Chunk) : Bool :=
  match ch.choices.head? with
  | some d => d.reasoning_details.isSome
  | none => false

/-- Did the chunk's first delta carry (possibly via the `reasoning` alias) a
non-`None` reasoning text slice? -/
def chunkHasRC (ch : Chunk) : Bool :=
  match ch.choices.head? with
  | some d => (effReasoning d).isSome
  | none => false

/-- The reasoning detail blocks that arrived over the whole stream. -/
def arrivedDetailBlocks (chunks : List Chunk) : List Str :=
  (chunks.map (fun ch =>
    match ch.choices.head? with
    | some d => d.reasoning_details.getD []
    | none => [])).flatten

theorem stepToolCalls_flags {d : Delta} {st st2 : AsmState}
    (h : stepToolCalls d st = .ok st2) :
    st2.has_reasoning_details = st.has_reasoning_details ∧
    st2.has_reasoning_content = st.has_reasoning_content := by
  rw [stepToolCalls] at h
  split at h
  · split at h
    · split at h
      · cases h
      · cases h; exact ⟨rfl, rfl⟩
    · cases h; exact ⟨rfl, rfl⟩
  · cases h; exact ⟨rfl, rfl⟩

theorem asmStep_flags {st0 : AsmState} {ch : Chunk} {st1 : AsmState}
    (h : asmStep st0 ch = .ok st1) :
    st1.has_reasoning_details = (st0.has_reasoning_details || chunkHasRD ch) ∧
    st1.has_reasoning_content = (st0.has_reasoning_content || chunkHasRC ch) := by
  rw [asmStep] at h
  cases hc : ch.choices with
  | nil => rw [hc] at h; cases h; simp [chunkHasRD, chunkHasRC, hc]
  | cons d ds =>
    rw [hc] at h
    dsimp only at h
    split at h
    · cases h
    next st2 hst2 =>
    cases h
    obtain ⟨h1, h2⟩ := stepToolCalls_flags hst2
    constructor
    · show (stepUsage ch (stepFinish d st2)).has_reasoning_details = _
      have hu : (stepUsage ch (stepFinish d st2)).has_reasoning_details =
          st2.has_reasoning_details := by
        rw [stepUsage, stepFinish]
        cases ch.usage <;> cases d.finish_reason <;> rfl
      rw [hu, h1, stepContent]
      have hrd : chunkHasRD ch = d.reasoning_details.isSome := by
        rw [chunkHasRD, hc]; rfl
      cases hd : d.content with
      | none =>
        rw [stepDetails, stepReasoning]
        cases hl : d.reasoning_details <;> cases he : effReasoning d <;>
          simp [hrd, hl]
      | some s =>
        dsimp only
        split <;>
        · rw [stepDetails, stepReasoning]
          cases hl : d.reasoning_details <;> cases he : effReasoning d <;>
            simp [hrd, hl]
    · show (stepUsage ch (stepFinish d st2)).has_reasoning_content = _
      have hu : (stepUsage ch (stepFinish d st2)).has_reasoning_content =
          st2.has_reasoning_content := by
        rw [stepUsage, stepFinish]
        cases ch.usage <;> cases d.finish_reason <;> rfl
      rw [hu, h2, stepContent]
      have hrc : chunkHasRC ch = (effReasoning d).isSome := by
        rw [chunkHasRC, hc]; rfl
      cases hd : d.content with
      | none =>
        rw [stepDetails, stepReasoning]
        cases hl : d.reasoning_details <;> cases he : effReasoning d <;>
          simp [hrc, he]
      | some s =>
        dsimp only
        split <;>
        · rw [stepDetails, stepReasoning]
          cases hl : d.reasoning_details <;> cases he : effReasoning d <;>
            simp [hrc, he]

theorem assembleAux_flags :
    ∀ (chunks : List Chunk) (st0 st : AsmState), assembleAux st0 chunks = .ok st →
      st.has_reasoning_details = (st0.has_reasoning_details || chunks.any chunkHasRD) ∧
      st.has_reasoning_content = (st0.has_reasoning_content || chunks.any chunkHasRC) := by
  intro chunks
  induction chunks with
  | nil => intro st0 st h; cases h; simp
  | cons ch rest ih =>
    intro st0 st h
    rw [assembleAux] at h
    split at h
    · cases h
    next st1 hst1 =>
    obtain ⟨h1, h2⟩ := asmStep_flags hst1
    obtain ⟨h3, h4⟩ := ih st1 st h
    rw [h3, h4, h1, h2]
    simp [Bool.or_assoc]

/-- **C9 (amended).** The assembled assistant message carries the
`reasoning_details` key iff some fragment of the stream carried a
(non-`None`) `reasoning_details` attribute, and the `reasoning_content`
key iff some fragment carried a non-`None` reasoning-text attribute
(directly or via the `reasoning` alias) — even when the carried value is
empty; when no such fragment arrived the keys are omitted entirely. -/
theorem assembler_reasoning_keys (chunks : List Chunk) (st : AsmState)
    (h : assemble chunks = .ok st) :
    ((buildAssistantMessage st).reasoning_details ≠ none ↔
      chunks.any chunkHasRD = true) ∧
    ((buildAssistantMessage st).reasoning_content ≠ none ↔
      chunks.any chunkHasRC = true) := by
  obtain ⟨h1, h2⟩ := assembleAux_flags chunks {} st h
  simp only [AsmState.has_reasoning_details, AsmState.has_reasoning_content,
    Bool.false_or] at h1 h2
  constructor
  · rw [buildAssistantMessage]
    dsimp only
    rw [h1]
    cases chunks.any chunkHasRD <;> simp
  · rw [buildAssistantMessage]
    dsimp only
    rw [h2]
    cases chunks.any chunkHasRC <;> simp

/-- A delta carrying one reasoning slice and one detail block. -/
def richDelta : Delta :=
  { rcAttr := none, rAttr := some (some (str "th")),
    reasoning_details := some [str "blk"], content := some (str "hi"),
    tool_calls := none, finish_reason := some (str "stop") }

/-- A one-chunk stream built from `richDelta`. -/
def richStream : List Chunk := [{ choices := [richDelta], usage := some 10 }]

/-- Witness for C9's amended statement: a stream with one detail block and
one reasoning slice sets both keys; an empty stream omits both. -/
theorem assembler_reasoning_keys_witness :
    (∀ st, assemble richStream = .ok st →
      (buildAssistantMessage st).reasoning_details ≠ none ∧
      (buildAssistantMessage st).reasoning_content ≠ none) ∧
    (∀ st, assemble [] = .ok st →
      (buildAssistantMessage st).reasoning_details = none ∧
      (buildAssistantMessage st).reasoning_content = none) := by
  constructor
  · intro st h
    obtain ⟨h1, h2⟩ := assembler_reasoning_keys richStream st h
    exact ⟨h1.mpr (by decide), h2.mpr (by decide)⟩
  · intro st h
    obtain ⟨h1, h2⟩ := assembler_reasoning_keys [] st h
    constructor
    · by_contra hne
      exact absurd (h1.mp hne) (by decide)
    · by_contra hne
      exact absurd (h2.mp hne) (by decide)

/-- A delta whose `reasoning_details` attribute is present but empty. -/
def emptyDetailDelta : Delta :=
  { rcAttr := none, rAttr := none, reasoning_details := some [],
    content := none, tool_calls := none, finish_reason := none }

/-- A one-chunk stream carrying an empty detail list. -/
def emptyDetailStream : List Chunk := [{ choices := [emptyDetailDelta], usage := none }]

/-- The accumulator state after assembling `emptyDetailStream`. -/
def emptyDetailState : AsmState :=
  { has_reasoning_details := true, reasoning_details := [] }

/-- **C9 counterexample.** A fragment carrying `reasoning_details = []`
(present but empty, not `None`) makes the code include the
`reasoning_details` key although zero reasoning detail blocks arrived, so
"the key is present iff at least one detail block arrived" fails as
stated. -/
theorem assembler_reasoning_keys_cex :
    ¬ (∀ st : AsmState, assemble emptyDetailStream = .ok st →
        ((buildAssistantMessage st).reasoning_details ≠ none ↔
          arrivedDetailBlocks emptyDetailStream ≠ [])) := by
  intro h
  have h2 := h emptyDetailState (by decide)
  have h3 : (buildAssistantMessage emptyDetailState).reasoning_details ≠ none := by decide
  have h4 := h2.mp h3
  exact h4 (by decide)

/-! ## Turn-loop step (cli.py lines 797-887)

One iteration of the inner `while True` loop after the stream has been
assembled: the assistant message is appended; then, if a usage snapshot
arrived and `(tokens / window) * 100 > 80`, the conversation (now ending
with the assistant message, with all earlier tool results already inside)
is compacted; then the message's tool calls, if any, are dispatched and
their results appended.  The float comparison is modelled in exact
arithmetic: for a positive window, `(tokens / window) * 100 > 80` iff
`100 * tokens > 80 * window`. -/

/-- Observable actions of one turn-loop step, in order. -/
inductive StepEvent where
  | appendedAssistant (m : Message)
  | compacted (input : List Message)
  | dispatched
deriving DecidableEq

/-- The compaction guard (`usage is not None` and over 80% of the window). -/
def usageTriggers (window : Nat) (usage : Option Nat) : Bool :=
  match usage with
  | some tokens => 80 * window < 100 * tokens
  | none => false

/-- One turn-loop iteration from the assembled state: returns the new
conversation and the ordered event trace. -/
def turnStep (window : Nat) (env : DispatchEnv) (messages : List Message)
    (st : AsmState) : List Message × List StepEvent :=
  let msg := buildAssistantMessage st
  let messages1 := messages ++ [msg]
  let messages2 := if usageTriggers window st.usage then compact messages1 else messages1
  let ev2 : List StepEvent :=
    if usageTriggers window st.usage then [.compacted messages1] else []
  if st.tool_calls = [] then
    (messages2, .appendedAssistant msg :: ev2)
  else
    (messages2 ++ dispatchAll env st.tool_calls,
     .appendedAssistant msg :: ev2 ++ [.dispatched])

/-- **C8.** The Turn Loop invokes the Context Compactor exactly when the
reported usage exceeds 80% of the context window, and only on the
conversation that already ends with the current turn's assistant message
(all previously appended tool results included); the dispatch of the
current message's tool calls comes after. -/
theorem compaction_trigger (window : Nat) (env : DispatchEnv)
    (messages : List Message) (st : AsmState) :
    ((∃ input, StepEvent.compacted input ∈ (turnStep window env messages st).2) ↔
      (∃ tokens, st.usage = some tokens ∧ 80 * window < 100 * tokens)) ∧
    (∀ input, StepEvent.compacted input ∈ (turnStep window env messages st).2 →
      input = messages ++ [buildAssistantMessage st]) ∧
    ((turnStep window env messages st).2 =
      StepEvent.appendedAssistant (buildAssistantMessage st) ::
        (if usageTriggers window st.usage then
          [StepEvent.compacted (messages ++ [buildAssistantMessage st])] else []) ++
        (if st.tool_calls = [] then [] else [StepEvent.dispatched])) := by
  have htrig : usageTriggers window st.usage = true ↔
      ∃ tokens, st.usage = some tokens ∧ 80 * window < 100 * tokens := by
    rw [usageTriggers.eq_def]
    cases st.usage with
    | none => simp
    | some t => simp
  have hevs : (turnStep window env messages st).2 =
      StepEvent.appendedAssistant (buildAssistantMessage st) ::
        (if usageTriggers window st.usage then
          [StepEvent.compacted (messages ++ [buildAssistantMessage st])] else []) ++
        (if st.tool_calls = [] then [] else [StepEvent.dispatched]) := by
    rw [turnStep]
    by_cases htc : st.tool_calls = [] <;>
      by_cases hu : usageTriggers window st.usage = true <;>
        simp [htc, hu]
  refine ⟨?_, ?_, hevs⟩
  · rw [← htrig]
    constructor
    · rintro ⟨input, hin⟩
      by_contra hu
      rw [Bool.not_eq_true] at hu
      rw [hevs, hu] at hin
      by_cases htc : st.tool_calls = [] <;> simp [htc] at hin
    · intro hu
      exact ⟨messages ++ [buildAssistantMessage st], by
        rw [hevs, hu]
        by_cases htc : st.tool_calls = [] <;> simp [htc]⟩
  · intro input hin
    rw [hevs] at hin
    by_cases hu : usageTriggers window st.usage = true <;>
      by_cases htc : st.tool_calls = [] <;> simp [hu, htc] at hin <;> exact hin

/-- A trivial dispatcher environment for witnesses. -/
def nullEnv : DispatchEnv :=
  { hasTool := fun _ => false, parseArgs := fun _ => .ok Json.null,
    validate := fun _ _ => .ok (), invoke := fun _ _ => .ok Json.null }

/-- Witness for C8: a 100-token window with an 81-token usage triggers
exactly one compaction of the assistant-terminated conversation. -/
theorem compaction_trigger_witness :
    let env : DispatchEnv := nullEnv
    let st : AsmState := { usage := some 81 }
    (∃ input, StepEvent.compacted input ∈ (turnStep 100 env [] st).2) ∧
    (∀ input, StepEvent.compacted input ∈ (turnStep 100 env [] st).2 →
      input = [buildAssistantMessage st]) := by
  intro env st
  obtain ⟨h1, h2, -⟩ := compaction_trigger 100 env [] st
  exact ⟨h1.mpr ⟨81, rfl, by omega⟩, fun input hin => by simpa using h2 input hin⟩

/-! ## File Writer (`WriteTool.__call__`, cli.py lines 307-365)

The tool checks the path and parent; for an existing target it requires
`overwrite`, a regular file and writability, and reads the prior content
only when the file is also readable (`old_content = ''` otherwise); it
builds the diff (against `''` labelled `/dev/null` for a new file), prints
it, runs the confirmation gate (skipped with `--skip-permissions`), and
only then opens the file for writing and truncates it. -/

/-- The `os.path`/`os.access` view of `file_path` at call time. -/
structure FSView where
  isAbs : Bool
  parentExists : Bool
  parentWritable : Bool
  fileExists : Bool
  isFile : Bool
  readable : Bool
  writable : Bool
  content : Str
deriving DecidableEq, Repr

/-- Observable actions of one File Writer invocation, in order. -/
inductive WriteEvent where
  | showedDiff (d : Str)
  | gated
  | wrote
deriving DecidableEq, Repr

/-- Result, event trace and post-state of one File Writer invocation. -/
structure WriteOutcome where
  result : TRes Bool
  events : List WriteEvent
  fs : FSView
deriving DecidableEq, Repr

/-- `WriteTool.__call__` over the filesystem view.  `gate` is the
confirmation outcome when the gate runs; the `showedDiff` event carries the
diff text computed before the gate (the code prints its colorized form). -/
def writeTool (fs : FSView) (file_path : Str) (overwrite : Bool) (content : Str)
    (skipPerm : Bool) (gate : TRes Unit) : WriteOutcome :=
  if fs.isAbs = false then
    ⟨.err (str "file_path must be an absolute path."), [], fs⟩
  else if fs.parentExists = false then
    ⟨.err (str "dirname(file_path) does not exist."), [], fs⟩
  else if fs.parentWritable = false then
    ⟨.err (str "dirname(file_path) is not writable."), [], fs⟩
  else
    match (if fs.fileExists = false then
            .ok (diffPlain [] content (str "/dev/null") file_path)
          else if overwrite = false then
            .err (str "file_path already exists and overwrite is false.")
          else if fs.isFile = false then
            .err (str "file_path already exists and is not a regular file.")
          else if fs.writable = false then
            .err (str "file_path already exists and is not writable.")
          else
            .ok (diffPlain (if fs.readable then fs.content else []) content
              file_path file_path) : TRes Str) with
    | .err e => ⟨.err e, [], fs⟩
    | .ok d =>
      if skipPerm then
        ⟨.ok true, [.showedDiff d, .wrote],
         { fs with fileExists := true, isFile := true, content := content }⟩
      else
        match gate with
        | .err e => ⟨.err e, [.showedDiff d, .gated], fs⟩
        | .ok _ =>
          ⟨.ok true, [.showedDiff d, .gated, .wrote],
           { fs with fileExists := true, isFile := true, content := content }⟩

/-- The diff text the Writer computes before the gate: prior content when
the file exists and is readable, the empty string otherwise, labelled
`/dev/null` for a new file. -/
def writeDiff (fs : FSView) (file_path content : Str) : Str :=
  if fs.fileExists then
    diffPlain (if fs.readable then fs.content else []) content file_path file_path
  else diffPlain [] content (str "/dev/null") file_path

set_option maxHeartbeats 1000000 in
/-- **C7 (amended).** When the precondition checks pass and permissions are
not skipped: the diff of the new content against the prior content — the
empty string when the file does not exist *or is not readable* — is
computed and shown before the gate; the write happens only after the gate
accepts; on rejection a `ToolError` is raised and the file's content is
unchanged. -/
theorem write_ordering (fs : FSView) (file_path content : Str) (overwrite : Bool)
    (gate : TRes Unit)
    (habs : fs.isAbs = true) (hpe : fs.parentExists = true)
    (hpw : fs.parentWritable = true)
    (hex : fs.fileExists = true → overwrite = true ∧ fs.isFile = true ∧ fs.writable = true) :
    (writeTool fs file_path overwrite content false gate =
      match gate with
      | .err e => ⟨.err e, [.showedDiff (writeDiff fs file_path content), .gated], fs⟩
      | .ok _ => ⟨.ok true,
          [.showedDiff (writeDiff fs file_path content), .gated, .wrote],
          { fs with fileExists := true, isFile := true, content := content }⟩) ∧
    (∀ e, gate = .err e → (writeTool fs file_path overwrite content false gate).fs.content =
      fs.content) := by
  have hmain : writeTool fs file_path overwrite content false gate =
      match gate with
      | .err e => ⟨.err e, [.showedDiff (writeDiff fs file_path content), .gated], fs⟩
      | .ok _ => ⟨.ok true,
          [.showedDiff (writeDiff fs file_path content), .gated, .wrote],
          { fs with fileExists := true, isFile := true, content := content }⟩ := by
    rw [writeTool, if_neg (by simp [habs]), if_neg (by simp [hpe]), if_neg (by simp [hpw])]
    cases hfe : fs.fileExists with
    | false =>
      rw [writeDiff.eq_def, hfe]
      cases gate <;> rfl
    | true =>
      obtain ⟨ho, hif, hw⟩ := hex hfe
      rw [if_neg (by simp [hfe]), if_neg (by simp [ho]), if_neg (by simp [hif]),
        if_neg (by simp [hw]), writeDiff.eq_def, hfe]
      cases gate <;> rfl
  refine ⟨hmain, fun e hg => ?_⟩
  rw [hmain, hg]

/-- Witness for C7's amended statement: accept writes after the gate,
reject leaves the file untouched. -/
theorem write_ordering_witness :
    let fs : FSView := ⟨true, true, true, true, true, true, true, str "x"⟩
    (writeTool fs (str "/f") true (str "y") false (.ok ()) =
      ⟨.ok true, [.showedDiff (writeDiff fs (str "/f") (str "y")), .gated, .wrote],
       { fs with content := str "y" }⟩) ∧
    (writeTool fs (str "/f") true (str "y") false (.err (str "User rejected.")) =
      ⟨.err (str "User rejected."),
       [.showedDiff (writeDiff fs (str "/f") (str "y")), .gated], fs⟩) ∧
    (writeTool fs (str "/f") true (str "y") false
      (.err (str "User rejected."))).fs.content = str "x" := by
  intro fs
  obtain ⟨h1, h2⟩ := write_ordering fs (str "/f") (str "y") true (.ok ())
    rfl rfl rfl (fun _ => ⟨rfl, rfl, rfl⟩)
  obtain ⟨h3, h4⟩ := write_ordering fs (str "/f") (str "y") true
    (.err (str "User rejected.")) rfl rfl rfl (fun _ => ⟨rfl, rfl, rfl⟩)
  exact ⟨h1, h3, h4 (str "User rejected.") rfl⟩

/-- The C7 counterexample filesystem view: the target exists, is a regular
writable file, but is not readable; its actual content is `"x\n"`. -/
def unreadableFS : FSView := ⟨true, true, true, true, true, false, true, str "x\n"⟩

/-- **C7 counterexample.** For an existing writable but unreadable file the
code diffs against the empty string, not the file's prior content, so "a
unified diff of the new content against the file's prior content (empty
only when the file does not exist)" fails as stated: the shown diff is the
new-file-shaped one, and it differs from the diff against the prior
content. -/
theorem write_diff_cex :
    (writeTool unreadableFS (str "/f") true (str "y\n") false (.ok ())).events =
      [.showedDiff (diffPlain [] (str "y\n") (str "/f") (str "/f")), .gated, .wrote] ∧
    diffPlain [] (str "y\n") (str "/f") (str "/f") ≠
      diffPlain (str "x\n") (str "y\n") (str "/f") (str "/f") := by
  constructor
  · decide
  · decide

/-! ## Applying a unified diff

Modelled from the spec: "applying the unified diff produced by File
Editor/Writer to the old content reproduces the new content exactly".
The repository produces diffs but never applies them, so the application
semantics is the standard one for the unified format: split the diff text
into lines, skip the `---`/`+++` headers, parse each `@@ -range +range @@`
hunk header, consume the hunk body by its line counts, and rebuild the new
content from the old lines (using the hunks' old-file positions) and the
context/`+` lines of the body. -/

/-- Is `c` an ASCII decimal digit? -/
def isDigitCh (c : Char) : Bool := 48 ≤ c.toNat && c.toNat ≤ 57

/-- Modelled from the spec: accumulate a decimal number. -/
def parseNatAux : Str → Nat → Nat × Str
  | [], acc => (acc, [])
  | c :: cs, acc =>
    if isDigitCh c then parseNatAux cs (acc * 10 + (c.toNat - 48)) else (acc, c :: cs)

/-- Modelled from the spec: parse a non-empty run of decimal digits. -/
def parseNat (s : Str) : Option (Nat × Str) :=
  match s with
  | [] => none
  | c :: _ => if isDigitCh c then some (parseNatAux s 0) else none

/-- Modelled from the spec: parse one `start[,len]` range of a hunk header,
returning the 0-based start index in the file and the length (a missing
length means 1; a zero length leaves the printed number as the position). -/
def parseRange (s : Str) : Option ((Nat × Nat) × Str) :=
  match parseNat s with
  | none => none
  | some (b1, rest) =>
    match rest with
    | ',' :: rest2 =>
      match parseNat rest2 with
      | none => none
      | some (l, rest3) => some ((if l = 0 then b1 else b1 - 1, l), rest3)
    | _ => some ((b1 - 1, 1), rest)

/-- Strip an exact prefix. -/
def dropPrefix (pre s : Str) : Option Str :=
  if pre.isPrefixOf s then some (s.drop pre.length) else none

/-- Modelled from the spec: parse one `@@ -r1 +r2 @@` hunk header line into
`(aStart, aLen, bStart, bLen)` (0-based starts). -/
def parseHunkHeader (l : Str) : Option (Nat × Nat × Nat × Nat) :=
  match dropPrefix (str "@@ -") l with
  | none => none
  | some r1 =>
    match parseRange r1 with
    | none => none
    | some ((aS, aL), r2) =>
      match dropPrefix (str " +") r2 with
      | none => none
      | some r3 =>
        match parseRange r3 with
        | none => none
        | some ((bS, bL), r4) =>
          if r4 = str " @@" ++ ['\n'] then some (aS, aL, bS, bL) else none

/-- One parsed hunk: 0-based old-file start, old length, new length and the
tagged body lines. -/
structure Hunk where
  aStart : Nat
  aLen : Nat
  bLen : Nat
  body : List Str
deriving DecidableEq, Repr

/-- Modelled from the spec: consume the body of a hunk, decrementing the
old-count for `' '`/`'-'` lines and the new-count for `' '`/`'+'` lines,
stopping when both reach zero. -/
def parseBody : Nat → Nat → List Str → Option (List Str × List Str)
  | 0, 0, lines => some ([], lines)
  | _, _, [] => none
  | r1, r2, l :: ls =>
    match l.head? with
    | some ' ' =>
      if r1 ≠ 0 ∧ r2 ≠ 0 then
        (parseBody (r1 - 1) (r2 - 1) ls).map (fun p => (l :: p.1, p.2))
      else none
    | some '-' =>
      if r1 ≠ 0 then (parseBody (r1 - 1) r2 ls).map (fun p => (l :: p.1, p.2)) else none
    | some '+' =>
      if r2 ≠ 0 then (parseBody r1 (r2 - 1) ls).map (fun p => (l :: p.1, p.2)) else none
    | _ => none

/-- Modelled from the spec: parse the hunks one after another; the fuel
bounds the recursion and any `fuel ≥ number of lines` is enough since each
hunk consumes at least its header line. -/
def parseHunksF : Nat → List Str → Option (List Hunk)
  | _, [] => some []
  | 0, _ :: _ => none
  | fuel + 1, l :: ls =>
    match parseHunkHeader l with
    | none => none
    | some (aS, aL, _, bL) =>
      match parseBody aL bL ls with
      | none => none
      | some (body, rest) =>
        (parseHunksF fuel rest).map (fun hs => ⟨aS, aL, bL, body⟩ :: hs)

/-- The new-file lines a body line contributes (context and `+` lines,
tag stripped). -/
def emitLine (l : Str) : Option Str :=
  match l.head? with
  | some ' ' => some l.tail
  | some '+' => some l.tail
  | _ => none

/-- Modelled from the spec: apply one hunk at the cursor — copy the old
lines up to the hunk's start, emit the body's context/`+` lines, and move
the cursor past the hunk's old range. -/
def applyHunk (cursor : Nat) (a : List Str) (h : Hunk) (out : List Str) :
    Option (Nat × List Str) :=
  if cursor ≤ h.aStart ∧ h.aStart + h.aLen ≤ a.length then
    some (h.aStart + h.aLen, out ++ slice a cursor h.aStart ++ h.body.filterMap emitLine)
  else none

/-- Modelled from the spec: apply the hunks in order and append the old
lines past the last hunk. -/
def applyHunks : Nat → List Str → List Hunk → List Str → Option (List Str)
  | cursor, a, [], out => if cursor ≤ a.length then some (out ++ a.drop cursor) else none
  | cursor, a, h :: hs, out =>
    match applyHunk cursor a h out with
    | none => none
    | some (c2, out2) => applyHunks c2 a hs out2

/-- Modelled from the spec: apply a whole unified-diff text to the old
content, reading both the diff text and the old content as
`'\n'`-terminated text lines (as a standard patch tool does); an empty
diff means the contents were equal. -/
def applyUnified (diffText old : Str) : Option Str :=
  match splitKeepNL diffText with
  | [] => some old
  | [_] => none
  | l1 :: l2 :: rest =>
    if (str "--- ").isPrefixOf l1 ∧ (str "+++ ").isPrefixOf l2 then
      match parseHunksF rest.length rest with
      | none => none
      | some hunks => (applyHunks 0 (splitKeepNL old) hunks []).map List.flatten
    else none

/-! ## Basic lemmas: slices, line splitting, decimal printing -/

theorem slice_split {α : Type} {a : List α} {c m e : Nat} (h1 : c ≤ m) (h2 : m ≤ e) :
    slice a c e = slice a c m ++ slice a m e := by
  rw [slice, slice, slice]
  rw [show e - c = (m - c) + (e - m) by omega, List.take_add, List.drop_drop]
  rw [show c + (m - c) = m by omega]

theorem slice_take {α : Type} {a b : List α} {i e j f : Nat}
    (he : slice a i e = slice b j f) {k : Nat} (hk1 : k ≤ e - i) (hk2 : k ≤ f - j) :
    slice a i (i + k) = slice b j (j + k) := by
  have ha : slice a i (i + k) = (slice a i e).take k := by
    rw [slice, slice, List.take_take]
    congr 1
    omega
  have hb : slice b j (j + k) = (slice b j f).take k := by
    rw [slice, slice, List.take_take]
    congr 1
    omega
  rw [ha, hb, he]

theorem slice_drop {α : Type} {a b : List α} {i e j f : Nat}
    (he : slice a i e = slice b j f) {k m : Nat} (hik : i ≤ k) (hjk : j ≤ m)
    (hoff : k - i = m - j) :
    slice a k e = slice b m f := by
  have ha : slice a k e = (slice a i e).drop (k - i) := by
    rw [slice, slice, List.drop_take, List.drop_drop]
    rw [show i + (k - i) = k by omega, show e - i - (k - i) = e - k by omega]
  have hb : slice b m f = (slice b j f).drop (m - j) := by
    rw [slice, slice, List.drop_take, List.drop_drop]
    rw [show j + (m - j) = m by omega, show f - j - (m - j) = f - m by omega]
  rw [ha, hb, he, hoff]

theorem slice_length {α : Type} {a : List α} {i e : Nat} (h1 : i ≤ e) (h2 : e ≤ a.length) :
    (slice a i e).length = e - i := by
  rw [slice, List.length_take, List.length_drop]
  omega

theorem slice_zero_length {α : Type} (a : List α) : slice a 0 a.length = a := by
  rw [slice, List.drop_zero, Nat.sub_zero, List.take_length]

theorem slice_self {α : Type} (a : List α) (i : Nat) : slice a i i = [] := by
  rw [slice, Nat.sub_self, List.take_zero]

theorem slice_drop_eq {α : Type} {a : List α} (c : Nat) :
    a.drop c = slice a c a.length := by
  rw [slice, List.take_of_length_le]
  rw [List.length_drop]

/-! ### Line splitting -/

/-- A proper line: some newline-free text followed by `'\n'`. -/
def ProperLine (l : Str) : Prop := ∃ m, l = m ++ ['\n'] ∧ '\n' ∉ m

/-- The content is empty or ends with a newline (so all its lines are
proper). -/
def endsNL (s : Str) : Bool := s.isEmpty || s.getLast? = some '\n'

theorem splitKeepNL_flatten : ∀ s : Str, (splitKeepNL s).flatten = s := by
  intro s
  induction s with
  | nil => rfl
  | cons c rest ih =>
    rw [splitKeepNL]
    by_cases hc : c = '\n'
    · rw [if_pos hc, List.flatten_cons, hc, ih]
      rfl
    · rw [if_neg hc]
      cases hsk : splitKeepNL rest with
      | nil =>
        rw [hsk] at ih
        have hrest : rest = [] := by simpa using ih.symm
        subst hrest
        rfl
      | cons l ls =>
        rw [hsk, List.flatten_cons] at ih
        rw [List.flatten_cons, List.cons_append, ih]

theorem splitKeepNL_proper_append {m : Str} (hm : '\n' ∉ m) (t : Str) :
    splitKeepNL ((m ++ ['\n']) ++ t) = (m ++ ['\n']) :: splitKeepNL t := by
  induction m with
  | nil => simp [splitKeepNL]
  | cons c m' ih =>
    have hc : c ≠ '\n' := fun h => hm (h ▸ List.mem_cons_self c m')
    have hm' : '\n' ∉ m' := fun h => hm (List.mem_cons_of_mem c h)
    rw [List.cons_append, List.cons_append, splitKeepNL, if_neg hc, ih hm']

theorem splitKeepNL_flatten_proper :
    ∀ ls : List Str, (∀ l ∈ ls, ProperLine l) → splitKeepNL ls.flatten = ls := by
  intro ls
  induction ls with
  | nil => intro _; rfl
  | cons l rest ih =>
    intro h
    obtain ⟨m, hl, hm⟩ := h l (List.mem_cons_self l rest)
    rw [List.flatten_cons, hl, splitKeepNL_proper_append hm,
      ih (fun l' hl' => h l' (List.mem_cons_of_mem l hl'))]

theorem splitKeepNL_proper_of_endsNL :
    ∀ s : Str, endsNL s = true → ∀ l ∈ splitKeepNL s, ProperLine l := by
  intro s
  induction s with
  | nil => intro _ l hl; simp [splitKeepNL] at hl
  | cons c rest ih =>
    intro hend l hl
    have hrest : rest = [] ∨ endsNL rest = true := by
      cases hr : rest with
      | nil => exact .inl rfl
      | cons c2 r2 =>
        refine .inr ?_
        rw [endsNL, Bool.or_eq_true] at hend ⊢
        rcases hend with hend | hend
        · simp [List.isEmpty] at hend
        · right
          rw [decide_eq_true_eq] at hend ⊢
          rw [hr] at hend
          rw [List.getLast?_cons_cons] at hend
          exact hend
    rw [splitKeepNL] at hl
    by_cases hc : c = '\n'
    · rw [if_pos hc] at hl
      rcases List.mem_cons.mp hl with h | h
      · exact ⟨[], by simp [h], by simp⟩
      · rcases hrest with hr | hr
        · rw [hr] at h; simp [splitKeepNL] at h
        · exact ih hr l h
    · rw [if_neg hc] at hl
      rcases hrest with hr | hr
      · subst hr
        rw [endsNL] at hend
        simp [List.getLast?] at hend
        exact absurd hend hc
      · cases hsk : splitKeepNL rest with
        | nil =>
          rw [hsk] at hl
          have : rest = [] := by
            have := splitKeepNL_flatten rest
            rw [hsk] at this
            simpa using this.symm
          subst this
          rw [endsNL] at hend
          simp [List.getLast?] at hend
          exact absurd hend hc
        | cons l0 ls =>
          rw [hsk] at hl
          rcases List.mem_cons.mp hl with h | h
          · obtain ⟨m0, hl0, hm0⟩ := ih hr l0 (by rw [hsk]; exact List.mem_cons_self l0 ls)
            refine ⟨c :: m0, ?_, ?_⟩
            · rw [h, hl0]; rfl
            · intro hmem
              rcases List.mem_cons.mp hmem with h2 | h2
              · exact hc h2.symm
              · exact hm0 h2
          · exact ih hr l (by rw [hsk]; exact List.mem_cons_of_mem l0 h)

theorem ProperLine.ne_nil {l : Str} (h : ProperLine l) : l ≠ [] := by
  obtain ⟨m, hl, -⟩ := h
  rw [hl]
  simp

/-! ### Decimal printing and parsing -/

theorem digit_facts : ∀ d, d < 10 → (Char.ofNat (48 + d)).toNat = 48 + d ∧
    isDigitCh (Char.ofNat (48 + d)) = true ∧ Char.ofNat (48 + d) ≠ '\n' := by decide

theorem natToStrAux_congr :
    ∀ n f1 f2, n ≤ f1 → n ≤ f2 → natToStrAux f1 n = natToStrAux f2 n := by
  intro n
  induction n using Nat.strong_induction_on with
  | _ n ih =>
    intro f1 f2 h1 h2
    cases n with
    | zero => cases f1 <;> cases f2 <;> rfl
    | succ k =>
      obtain ⟨f1', rfl⟩ : ∃ f1', f1 = f1' + 1 := ⟨f1 - 1, by omega⟩
      obtain ⟨f2', rfl⟩ : ∃ f2', f2 = f2' + 1 := ⟨f2 - 1, by omega⟩
      show (if k + 1 < 10 then [Char.ofNat (48 + (k + 1))]
          else natToStrAux f1' ((k + 1) / 10) ++ [Char.ofNat (48 + (k + 1) % 10)]) =
        (if k + 1 < 10 then [Char.ofNat (48 + (k + 1))]
          else natToStrAux f2' ((k + 1) / 10) ++ [Char.ofNat (48 + (k + 1) % 10)])
      by_cases hk : k + 1 < 10
      · rw [if_pos hk, if_pos hk]
      · rw [if_neg hk, if_neg hk,
          ih ((k + 1) / 10) (by omega) f1' f2' (by omega) (by omega)]

theorem natToStr_eq (n : Nat) : natToStr n =
    if n < 10 then [Char.ofNat (48 + n)]
    else natToStr (n / 10) ++ [Char.ofNat (48 + n % 10)] := by
  cases n with
  | zero => rfl
  | succ k =>
    rw [natToStr]
    show (if k + 1 < 10 then [Char.ofNat (48 + (k + 1))]
        else natToStrAux (k + 1) ((k + 1) / 10) ++ [Char.ofNat (48 + (k + 1) % 10)]) = _
    by_cases hk : k + 1 < 10
    · rw [if_pos hk, if_pos hk]
    · rw [if_neg hk, if_neg hk, natToStr,
        natToStrAux_congr ((k + 1) / 10) (k + 1) ((k + 1) / 10 + 1) (by omega) (by omega)]

theorem natToStr_digits :
    ∀ n, ∀ c ∈ natToStr n, isDigitCh c = true ∧ c ≠ '\n' := by
  intro n
  induction n using Nat.strong_induction_on with
  | _ n ih =>
    intro c hc
    rw [natToStr_eq] at hc
    by_cases hn : n < 10
    · rw [if_pos hn] at hc
      rcases List.mem_singleton.mp hc with rfl
      exact ⟨(digit_facts n hn).2.1, (digit_facts n hn).2.2⟩
    · rw [if_neg hn] at hc
      rcases List.mem_append.mp hc with h | h
      · exact ih (n / 10) (by omega) c h
      · rcases List.mem_singleton.mp h with rfl
        exact ⟨(digit_facts (n % 10) (by omega)).2.1,
          (digit_facts (n % 10) (by omega)).2.2⟩

theorem natToStr_ne_nil (n : Nat) : natToStr n ≠ [] := by
  rw [natToStr_eq]
  by_cases hn : n < 10
  · rw [if_pos hn]; simp
  · rw [if_neg hn]; simp

theorem parseNatAux_notDigit {s : Str}
    (h : ∀ c, s.head? = some c → isDigitCh c = false) (acc : Nat) :
    parseNatAux s acc = (acc, s) := by
  cases s with
  | nil => rfl
  | cons c cs => rw [parseNatAux, if_neg (by simp [h c rfl])]

theorem parseNatAux_append :
    ∀ n acc t, parseNatAux (natToStr n ++ t) acc =
      parseNatAux t (acc * 10 ^ (natToStr n).length + n) := by
  intro n
  induction n using Nat.strong_induction_on with
  | _ n ih =>
    intro acc t
    rw [natToStr_eq]
    by_cases hn : n < 10
    · rw [if_pos hn]
      rw [List.singleton_append, parseNatAux,
        if_pos (by rw [(digit_facts n hn).2.1])]
      rw [(digit_facts n hn).1]
      rw [show 48 + n - 48 = n by omega]
      norm_num
    · rw [if_neg hn, List.append_assoc, ih (n / 10) (by omega),
        List.singleton_append, parseNatAux,
        if_pos (by rw [(digit_facts (n % 10) (by omega)).2.1])]
      rw [(digit_facts (n % 10) (by omega)).1]
      rw [show 48 + n % 10 - 48 = n % 10 by omega]
      congr 1
      rw [List.length_append, List.length_singleton]
      rw [pow_succ]
      have hmod := Nat.div_add_mod n 10
      ring_nf
      omega

theorem parseNat_natToStr (n : Nat) (t : Str)
    (h : ∀ c, t.head? = some c → isDigitCh c = false) :
    parseNat (natToStr n ++ t) = some (n, t) := by
  obtain ⟨c0, cs, hns⟩ : ∃ c0 cs, natToStr n = c0 :: cs := by
    cases hx : natToStr n with
    | nil => exact absurd hx (natToStr_ne_nil n)
    | cons a b => exact ⟨a, b, rfl⟩
  have hdig : isDigitCh c0 = true :=
    (natToStr_digits n c0 (by rw [hns]; exact List.mem_cons_self c0 cs)).1
  rw [hns, List.cons_append, parseNat, if_pos hdig, ← List.cons_append, ← hns,
    parseNatAux_append, parseNatAux_notDigit h]
  rw [Nat.zero_mul, Nat.zero_add]

/-! ### Opcode chains and matching-block validity -/

/-- What each opcode tag guarantees about its two ranges: `equal` ranges
have the same length and matching slices, `delete` has an empty new range,
`insert` an empty old range. -/
def TagOK (a b : List Str) (op : Opcode) : Prop :=
  match op.tag with
  | .equal => op.i2 - op.i1 = op.j2 - op.j1 ∧ slice a op.i1 op.i2 = slice b op.j1 op.j2
  | .delete => op.j1 = op.j2
  | .insert => op.i1 = op.i2
  | .replace => True

/-- A well-formed, contiguous opcode list starting at `(i, j)`. -/
inductive ChainOK (a b : List Str) : Nat → Nat → List Opcode → Prop where
  | nil (i j : Nat) : ChainOK a b i j []
  | cons (i j : Nat) (op : Opcode) (rest : List Opcode)
      (h1 : op.i1 = i) (h2 : op.j1 = j) (h3 : i ≤ op.i2) (h4 : j ≤ op.j2)
      (h5 : op.i2 ≤ a.length) (h6 : op.j2 ≤ b.length) (h7 : TagOK a b op)
      (h8 : ChainOK a b op.i2 op.j2 rest) : ChainOK a b i j (op :: rest)

/-- The coordinates where an opcode chain ends. -/
def chainEnds : Nat → Nat → List Opcode → Nat × Nat
  | i, j, [] => (i, j)
  | _, _, op :: rest => chainEnds op.i2 op.j2 rest

theorem chainEnds_mono {a b : List Str} :
    ∀ {g : List Opcode} {i j : Nat}, ChainOK a b i j g →
      i ≤ (chainEnds i j g).1 ∧ j ≤ (chainEnds i j g).2 := by
  intro g
  induction g with
  | nil => intro i j _; exact ⟨Nat.le_refl i, Nat.le_refl j⟩
  | cons op rest ih =>
    intro i j h
    cases h with
    | cons _ _ _ _ h1 h2 h3 h4 h5 h6 h7 h8 =>
      obtain ⟨ha, hb⟩ := ih h8
      rw [chainEnds]
      exact ⟨Nat.le_trans h3 ha, Nat.le_trans h4 hb⟩

theorem chainEnds_le {a b : List Str} :
    ∀ {g : List Opcode} {i j : Nat}, ChainOK a b i j g →
      i ≤ a.length → j ≤ b.length →
      (chainEnds i j g).1 ≤ a.length ∧ (chainEnds i j g).2 ≤ b.length := by
  intro g
  induction g with
  | nil => intro i j _ hi hj; exact ⟨hi, hj⟩
  | cons op rest ih =>
    intro i j h hi hj
    cases h with
    | cons _ _ _ _ h1 h2 h3 h4 h5 h6 h7 h8 =>
      rw [chainEnds]
      exact ih h8 h5 h6

theorem chainEnds_getLast? :
    ∀ (g : List Opcode) (i j : Nat) (op : Opcode), g.getLast? = some op →
      chainEnds i j g = (op.i2, op.j2) := by
  intro g
  induction g with
  | nil => intro i j op h; cases h
  | cons op0 rest ih =>
    intro i j op h
    cases rest with
    | nil =>
      rw [List.getLast?_singleton, Option.some_inj] at h
      subst h
      rfl
    | cons op2 rest2 =>
      rw [List.getLast?_cons_cons] at h
      rw [chainEnds]
      exact ih op0.i2 op0.j2 op h

theorem chain_append {a b : List Str} :
    ∀ (g1 : List Opcode) (i j : Nat) (g2 : List Opcode), ChainOK a b i j g1 →
      ChainOK a b (chainEnds i j g1).1 (chainEnds i j g1).2 g2 →
      ChainOK a b i j (g1 ++ g2) ∧
      chainEnds i j (g1 ++ g2) =
        chainEnds (chainEnds i j g1).1 (chainEnds i j g1).2 g2 := by
  intro g1
  induction g1 with
  | nil => intro i j g2 _ h2; exact ⟨h2, rfl⟩
  | cons op rest ih =>
    intro i j g2 h1 h2
    cases h1 with
    | cons _ _ _ _ ha hb hc hd he hf hg hh =>
      rw [chainEnds] at h2
      obtain ⟨hap, hend⟩ := ih op.i2 op.j2 g2 hh h2
      exact ⟨.cons i j op (rest ++ g2) ha hb hc hd he hf hg hap,
        by rw [List.cons_append, chainEnds, hend, chainEnds]⟩

/-- Validity of a `get_matching_blocks` result relative to suffixes
starting at `(i, j)`: blocks are within bounds, in order, genuinely match,
and the list ends with the `(len(a), len(b), 0)` sentinel. -/
def validBlocksFrom (a b : List Str) : Nat → Nat → List (Nat × Nat × Nat) → Bool
  | _, _, [] => false
  | i, j, [(ai, bj, k)] =>
    decide (k = 0) && decide (ai = a.length) && decide (bj = b.length) &&
    decide (i ≤ ai) && decide (j ≤ bj)
  | i, j, (ai, bj, k) :: rest =>
    decide (i ≤ ai) && decide (j ≤ bj) &&
    decide (ai + k ≤ a.length) && decide (bj + k ≤ b.length) &&
    decide (slice a ai (ai + k) = slice b bj (bj + k)) &&
    validBlocksFrom a b (ai + k) (bj + k) rest

/-- Validity of a complete `get_matching_blocks` result. -/
def validBlocks (a b : List Str) (blocks : List (Nat × Nat × Nat)) : Bool :=
  validBlocksFrom a b 0 0 blocks

theorem preOps_spec {a b : List Str} {i j ai bj : Nat}
    (hi : i ≤ ai) (hj : j ≤ bj) (ha : ai ≤ a.length) (hb : bj ≤ b.length) :
    ChainOK a b i j (preOps i j ai bj) ∧ chainEnds i j (preOps i j ai bj) = (ai, bj) := by
  rw [preOps]
  by_cases h1 : i < ai ∧ j < bj
  · rw [if_pos h1]
    exact ⟨.cons i j _ [] rfl rfl (by show i ≤ ai; omega) (by show j ≤ bj; omega)
      ha hb trivial (.nil _ _), rfl⟩
  · rw [if_neg h1]
    by_cases h2 : i < ai
    · rw [if_pos h2]
      have hjbj : j = bj := by omega
      exact ⟨.cons i j _ [] rfl rfl (by show i ≤ ai; omega) (by show j ≤ bj; omega)
        ha hb hjbj (.nil _ _), rfl⟩
    · rw [if_neg h2]
      by_cases h3 : j < bj
      · rw [if_pos h3]
        have hiai : i = ai := by omega
        exact ⟨.cons i j _ [] rfl rfl (by show i ≤ ai; omega) (by show j ≤ bj; omega)
          ha hb hiai (.nil _ _), rfl⟩
      · rw [if_neg h3]
        refine ⟨.nil _ _, ?_⟩
        rw [chainEnds]
        have h4 : i = ai ∧ j = bj := by omega
        rw [h4.1, h4.2]

theorem opcodes_chain {a b : List Str} :
    ∀ (blocks : List (Nat × Nat × Nat)) (i j : Nat), i ≤ a.length → j ≤ b.length →
      validBlocksFrom a b i j blocks = true →
      ChainOK a b i j (getOpcodesAux i j blocks) ∧
      chainEnds i j (getOpcodesAux i j blocks) = (a.length, b.length) := by
  intro blocks
  induction blocks with
  | nil => intro i j _ _ hv; cases hv
  | cons blk rest ih =>
    obtain ⟨ai, bj, k⟩ := blk
    intro i j hi hj hv
    cases rest with
    | nil =>
      rw [validBlocksFrom] at hv
      simp only [Bool.and_eq_true, decide_eq_true_eq] at hv
      obtain ⟨⟨⟨⟨hk, hai⟩, hbj⟩, hia⟩, hjb⟩ := hv
      subst hk hai hbj
      rw [getOpcodesAux, if_neg (by simp), getOpcodesAux]
      obtain ⟨hch, hend⟩ := preOps_spec (a := a) (b := b) hia hjb
        (Nat.le_refl _) (Nat.le_refl _)
      rw [List.append_nil, List.append_nil]
      exact ⟨hch, hend⟩
    | cons blk2 rest2 =>
      rw [validBlocksFrom] at hv
      case x_3 => simp
      simp only [Bool.and_eq_true, decide_eq_true_eq] at hv
      obtain ⟨⟨⟨⟨⟨hia, hjb⟩, hak⟩, hbk⟩, hsl⟩, hrest⟩ := hv
      rw [getOpcodesAux, List.append_assoc]
      obtain ⟨hch1, hend1⟩ := preOps_spec (a := a) (b := b) hia hjb
        (by omega) (by omega)
      have heqch : ChainOK a b ai bj
          (if k ≠ 0 then [⟨.equal, ai, ai + k, bj, bj + k⟩] else []) ∧
          chainEnds ai bj (if k ≠ 0 then [⟨.equal, ai, ai + k, bj, bj + k⟩] else []) =
            (ai + k, bj + k) := by
        by_cases hk : k = 0
        · subst hk
          rw [if_neg (by simp)]
          exact ⟨.nil _ _, rfl⟩
        · rw [if_pos (by simp [hk])]
          refine ⟨.cons ai bj _ [] rfl rfl (by show ai ≤ ai + k; omega)
            (by show bj ≤ bj + k; omega) hak hbk
            ⟨by show ai + k - ai = bj + k - bj; omega, hsl⟩ (.nil _ _), rfl⟩
      obtain ⟨hch2, hend2⟩ := heqch
      obtain ⟨hch3, hend3⟩ := ih (ai + k) (bj + k) hak hbk hrest
      have h23 := chain_append _ ai bj _ hch2 (by rw [hend2]; exact hch3)
      rw [hend2] at h23
      have h123 := chain_append _ i j _ hch1 (by rw [hend1]; exact h23.1)
      rw [hend1] at h123
      refine ⟨h123.1, ?_⟩
      rw [h123.2, h23.2, hend3]

/-! ### Context trimming preserves chain structure -/

theorem trimHead_spec {a b : List Str} (n : Nat) (codes : List Opcode)
    (h : ChainOK a b 0 0 codes) :
    ∃ s0, ChainOK a b s0 s0 (trimHead n codes) ∧ s0 ≤ a.length ∧ s0 ≤ b.length ∧
      slice a 0 s0 = slice b 0 s0 ∧
      (∀ i j, chainEnds i j (trimHead n codes) = chainEnds i j codes) := by
  cases codes with
  | nil =>
    refine ⟨0, ?_, by omega, by omega, by rw [slice_self, slice_self], fun i j => rfl⟩
    rw [trimHead]
    exact .nil 0 0
  | cons op rest =>
    cases h with
    | cons _ _ _ _ h1 h2 h3 h4 h5 h6 h7 h8 =>
      rw [trimHead]
      by_cases ht : op.tag = .equal
      · rw [if_pos ht]
        have h7' : op.i2 - op.i1 = op.j2 - op.j1 ∧
            slice a op.i1 op.i2 = slice b op.j1 op.j2 := by
          rw [TagOK, ht] at h7
          exact h7
        have hfull : slice a 0 op.i2 = slice b 0 op.j2 := by
          have := h7'.2
          rw [h1, h2] at this
          exact this
        have hij : op.i2 = op.j2 := by omega
        refine ⟨max op.i1 (op.i2 - n), ?_, by omega, by omega, ?_, fun i j => rfl⟩
        · refine .cons _ _ _ _ rfl ?_ ?_ ?_ h5 h6 ?_ h8
          · show max op.j1 (op.j2 - n) = max op.i1 (op.i2 - n)
            omega
          · show max op.i1 (op.i2 - n) ≤ op.i2
            omega
          · show max op.i1 (op.i2 - n) ≤ op.j2
            omega
          · refine ⟨?_, ?_⟩
            · show op.i2 - max op.i1 (op.i2 - n) = op.j2 - max op.j1 (op.j2 - n)
              omega
            · show slice a (max op.i1 (op.i2 - n)) op.i2 =
                slice b (max op.j1 (op.j2 - n)) op.j2
              exact slice_drop h7'.2 (by omega) (by omega) (by omega)
        · have hk := slice_take hfull (k := max op.i1 (op.i2 - n)) (by omega) (by omega)
          simpa only [Nat.zero_add] using hk
      · rw [if_neg ht]
        refine ⟨0, ?_, by omega, by omega, by rw [slice_self, slice_self],
          fun i j => rfl⟩
        exact .cons _ _ _ _ h1 (by omega) h3 h4 h5 h6 h7 h8

theorem trimTail_spec {a b : List Str} (n : Nat) :
    ∀ (codes : List Opcode) (i j : Nat), ChainOK a b i j codes →
      ChainOK a b i j (trimTail n codes) ∧
      (chainEnds i j (trimTail n codes)).1 ≤ (chainEnds i j codes).1 ∧
      (chainEnds i j (trimTail n codes)).2 ≤ (chainEnds i j codes).2 ∧
      (chainEnds i j codes).1 - (chainEnds i j (trimTail n codes)).1 =
        (chainEnds i j codes).2 - (chainEnds i j (trimTail n codes)).2 ∧
      slice a (chainEnds i j (trimTail n codes)).1 (chainEnds i j codes).1 =
        slice b (chainEnds i j (trimTail n codes)).2 (chainEnds i j codes).2 := by
  intro codes
  induction codes with
  | nil =>
    intro i j h
    simp only [trimTail, chainEnds]
    refine ⟨h, Nat.le_refl _, Nat.le_refl _, by omega, ?_⟩
    rw [slice_self, slice_self]
  | cons op rest ih =>
    intro i j h
    cases h with
    | cons _ _ _ _ h1 h2 h3 h4 h5 h6 h7 h8 =>
      cases rest with
      | nil =>
        rw [trimTail]
        by_cases ht : op.tag = .equal
        · rw [if_pos ht]
          have h7' : op.i2 - op.i1 = op.j2 - op.j1 ∧
              slice a op.i1 op.i2 = slice b op.j1 op.j2 := by
            rw [TagOK, ht] at h7
            exact h7
          refine ⟨?_, ?_, ?_, ?_, ?_⟩
          · refine .cons _ _ _ _ h1 h2 ?_ ?_ ?_ ?_ ?_ (.nil _ _)
            · show i ≤ min op.i2 (op.i1 + n)
              omega
            · show j ≤ min op.j2 (op.j1 + n)
              omega
            · show min op.i2 (op.i1 + n) ≤ a.length
              omega
            · show min op.j2 (op.j1 + n) ≤ b.length
              omega
            · refine ⟨?_, ?_⟩
              · show min op.i2 (op.i1 + n) - op.i1 = min op.j2 (op.j1 + n) - op.j1
                omega
              · show slice a op.i1 (min op.i2 (op.i1 + n)) =
                  slice b op.j1 (min op.j2 (op.j1 + n))
                have hk := slice_take h7'.2 (k := min op.i2 (op.i1 + n) - op.i1)
                  (by omega) (by omega)
                rw [show op.i1 + (min op.i2 (op.i1 + n) - op.i1) =
                    min op.i2 (op.i1 + n) by omega,
                  show op.j1 + (min op.i2 (op.i1 + n) - op.i1) =
                    min op.j2 (op.j1 + n) by omega] at hk
                exact hk
          · show min op.i2 (op.i1 + n) ≤ op.i2
            omega
          · show min op.j2 (op.j1 + n) ≤ op.j2
            omega
          · show op.i2 - min op.i2 (op.i1 + n) = op.j2 - min op.j2 (op.j1 + n)
            omega
          · show slice a (min op.i2 (op.i1 + n)) op.i2 =
              slice b (min op.j2 (op.j1 + n)) op.j2
            exact slice_drop h7'.2 (by omega) (by omega) (by omega)
        · rw [if_neg ht]
          refine ⟨.cons _ _ _ _ h1 h2 h3 h4 h5 h6 h7 (.nil _ _), ?_, ?_, ?_, ?_⟩
          · show op.i2 ≤ op.i2
            omega
          · show op.j2 ≤ op.j2
            omega
          · show op.i2 - op.i2 = op.j2 - op.j2
            omega
          · show slice a op.i2 op.i2 = slice b op.j2 op.j2
            rw [slice_self, slice_self]
      | cons op2 rest2 =>
        rw [trimTail]
        case x_1 => simp
        obtain ⟨hch, hle1, hle2, hoff, hsl⟩ := ih op.i2 op.j2 h8
        refine ⟨.cons _ _ _ _ h1 h2 h3 h4 h5 h6 h7 hch, ?_, ?_, ?_, ?_⟩
        · rw [chainEnds, chainEnds]
          exact hle1
        · rw [chainEnds, chainEnds]
          exact hle2
        · rw [chainEnds, chainEnds]
          exact hoff
        · rw [chainEnds, chainEnds]
          exact hsl

/-! ### Grouped opcodes: each group is a chain, groups are separated by
aligned equal regions, and the regions before, between and after groups
match between the two files. -/

inductive GroupsOK (a b : List Str) : Nat → Nat → List (List Opcode) → Prop where
  | nil (c d : Nat) (hc : c ≤ a.length) (hd : d ≤ b.length)
      (hlen : a.length - c = b.length - d)
      (heq : slice a c a.length = slice b d b.length) : GroupsOK a b c d []
  | cons (c d s t : Nat) (g : List Opcode) (gs : List (List Opcode))
      (hne : g ≠ [])
      (hcs : c ≤ s) (hdt : d ≤ t) (hoff : s - c = t - d)
      (hpre : slice a c s = slice b d t)
      (hsa : s ≤ a.length) (htb : t ≤ b.length)
      (hchain : ChainOK a b s t g)
      (hrest : GroupsOK a b (chainEnds s t g).1 (chainEnds s t g).2 gs) :
      GroupsOK a b c d (g :: gs)

theorem chainEnds_nonempty (g : List Opcode) (i j i2 j2 : Nat) (h : g ≠ []) :
    chainEnds i j g = chainEnds i2 j2 g := by
  cases g with
  | nil => exact absurd rfl h
  | cons op rest => rfl

theorem groupSplit_ok {a b : List Str} (n : Nat) :
    ∀ (ops group : List Opcode) (c d gi gj : Nat),
      ChainOK a b gi gj group →
      ChainOK a b (chainEnds gi gj group).1 (chainEnds gi gj group).2 ops →
      c ≤ gi → d ≤ gj → gi - c = gj - d → slice a c gi = slice b d gj →
      gi ≤ a.length → gj ≤ b.length →
      a.length - (chainEnds (chainEnds gi gj group).1
          (chainEnds gi gj group).2 ops).1 =
        b.length - (chainEnds (chainEnds gi gj group).1
          (chainEnds gi gj group).2 ops).2 →
      slice a (chainEnds (chainEnds gi gj group).1
          (chainEnds gi gj group).2 ops).1 a.length =
        slice b (chainEnds (chainEnds gi gj group).1
          (chainEnds gi gj group).2 ops).2 b.length →
      GroupsOK a b c d (groupSplit n group ops) := by
  intro ops
  induction ops with
  | nil =>
    intro group c d gi gj hgch hoch hcgi hdgj hoffp hpre hgia hgjb htlen htsl
    rw [chainEnds] at htlen htsl
    rw [groupSplit]
    by_cases hcond : group ≠ [] ∧
        ¬(group.length = 1 ∧ group.head?.map Opcode.tag = some .equal)
    · rw [if_pos hcond]
      obtain ⟨hEa, hEb⟩ := chainEnds_le hgch hgia hgjb
      exact .cons c d gi gj group [] hcond.1 hcgi hdgj hoffp hpre hgia hgjb hgch
        (.nil _ _ hEa hEb htlen htsl)
    · rw [if_neg hcond]
      by_cases hgrp : group = []
      · subst hgrp
        rw [chainEnds] at htlen htsl
        refine .nil c d (by omega) (by omega) (by omega) ?_
        rw [slice_split hcgi hgia, slice_split hdgj hgjb, hpre, htsl]
      · have hsing : group.length = 1 ∧ group.head?.map Opcode.tag = some .equal := by
          by_contra hns
          exact hcond ⟨hgrp, hns⟩
        obtain ⟨op, rfl⟩ := List.length_eq_one.mp hsing.1
        have htag : op.tag = .equal := by
          have h2 := hsing.2
          simp only [List.head?_cons, Option.map_some] at h2
          exact Option.some_inj.mp h2
        cases hgch with
        | cons _ _ _ _ h1 h2 h3 h4 h5 h6 h7 h8 =>
          have h7' : op.i2 - op.i1 = op.j2 - op.j1 ∧
              slice a op.i1 op.i2 = slice b op.j1 op.j2 := by
            rw [TagOK, htag] at h7
            exact h7
          rw [chainEnds, chainEnds] at htlen htsl
          refine .nil c d (by omega) (by omega) (by omega) ?_
          rw [slice_split hcgi (show gi ≤ a.length by omega),
            slice_split hdgj (show gj ≤ b.length by omega), hpre]
          rw [slice_split (show gi ≤ op.i2 by omega) h5,
            slice_split (show gj ≤ op.j2 by omega) h6]
          rw [← h1, ← h2, h7'.2, htsl]
  | cons op rest ih =>
    intro group c d gi gj hgch hoch hcgi hdgj hoffp hpre hgia hgjb htlen htsl
    rw [chainEnds] at htlen htsl
    cases hoch with
    | cons _ _ _ _ h1 h2 h3 h4 h5 h6 h7 h8 =>
      rw [groupSplit]
      by_cases hbig : op.tag = .equal ∧ 2 * n < op.i2 - op.i1
      · rw [if_pos hbig]
        have h7' : op.i2 - op.i1 = op.j2 - op.j1 ∧
            slice a op.i1 op.i2 = slice b op.j1 op.j2 := by
          rw [TagOK, hbig.1] at h7
          exact h7
        have hL : 2 * n < op.i2 - op.i1 := hbig.2
        -- the first half of the big equal opcode, closing the current group
        have hpart1 : ChainOK a b (chainEnds gi gj group).1 (chainEnds gi gj group).2
            [⟨.equal, op.i1, min op.i2 (op.i1 + n), op.j1, min op.j2 (op.j1 + n)⟩] := by
          refine .cons _ _ _ _ h1 h2 ?_ ?_ ?_ ?_ ?_ (.nil _ _)
          · show (chainEnds gi gj group).1 ≤ min op.i2 (op.i1 + n)
            omega
          · show (chainEnds gi gj group).2 ≤ min op.j2 (op.j1 + n)
            omega
          · show min op.i2 (op.i1 + n) ≤ a.length
            omega
          · show min op.j2 (op.j1 + n) ≤ b.length
            omega
          · refine ⟨?_, ?_⟩
            · show min op.i2 (op.i1 + n) - op.i1 = min op.j2 (op.j1 + n) - op.j1
              omega
            · show slice a op.i1 (min op.i2 (op.i1 + n)) =
                slice b op.j1 (min op.j2 (op.j1 + n))
              have hk := slice_take h7'.2 (k := min op.i2 (op.i1 + n) - op.i1)
                (by omega) (by omega)
              rw [show op.i1 + (min op.i2 (op.i1 + n) - op.i1) =
                  min op.i2 (op.i1 + n) by omega,
                show op.j1 + (min op.i2 (op.i1 + n) - op.i1) =
                  min op.j2 (op.j1 + n) by omega] at hk
              exact hk
        have hG1 := chain_append group gi gj _ hgch hpart1
        refine .cons c d gi gj _ _ (by simp) hcgi hdgj hoffp hpre hgia hgjb hG1.1 ?_
        rw [hG1.2, chainEnds, chainEnds]
        show GroupsOK a b (min op.i2 (op.i1 + n)) (min op.j2 (op.j1 + n)) _
        -- recurse with the second half of the big equal opcode as the new group
        have hpart2 : ChainOK a b (max op.i1 (op.i2 - n)) (max op.j1 (op.j2 - n))
            [⟨.equal, max op.i1 (op.i2 - n), op.i2, max op.j1 (op.j2 - n), op.j2⟩] := by
          refine .cons _ _ _ _ rfl rfl ?_ ?_ ?_ ?_ ?_ (.nil _ _)
          · show max op.i1 (op.i2 - n) ≤ op.i2
            omega
          · show max op.j1 (op.j2 - n) ≤ op.j2
            omega
          · show op.i2 ≤ a.length
            omega
          · show op.j2 ≤ b.length
            omega
          · refine ⟨?_, ?_⟩
            · show op.i2 - max op.i1 (op.i2 - n) = op.j2 - max op.j1 (op.j2 - n)
              omega
            · show slice a (max op.i1 (op.i2 - n)) op.i2 =
                slice b (max op.j1 (op.j2 - n)) op.j2
              exact slice_drop h7'.2 (by omega) (by omega) (by omega)
        have hmid : slice a (min op.i2 (op.i1 + n)) (max op.i1 (op.i2 - n)) =
            slice b (min op.j2 (op.j1 + n)) (max op.j1 (op.j2 - n)) := by
          have hd1 := slice_drop h7'.2 (k := min op.i2 (op.i1 + n))
            (m := min op.j2 (op.j1 + n)) (by omega) (by omega) (by omega)
          have hk := slice_take hd1
            (k := max op.i1 (op.i2 - n) - min op.i2 (op.i1 + n)) (by omega) (by omega)
          rw [show min op.i2 (op.i1 + n) +
              (max op.i1 (op.i2 - n) - min op.i2 (op.i1 + n)) =
              max op.i1 (op.i2 - n) by omega,
            show min op.j2 (op.j1 + n) +
              (max op.i1 (op.i2 - n) - min op.i2 (op.i1 + n)) =
              max op.j1 (op.j2 - n) by omega] at hk
          exact hk
        refine ih _ (min op.i2 (op.i1 + n)) (min op.j2 (op.j1 + n))
          (max op.i1 (op.i2 - n)) (max op.j1 (op.j2 - n)) hpart2 ?_
          (by omega) (by omega) (by omega) hmid (by omega) (by omega) ?_ ?_
        · rw [chainEnds, chainEnds]
          exact h8
        · rw [chainEnds, chainEnds]
          exact htlen
        · rw [chainEnds, chainEnds]
          exact htsl
      · rw [if_neg hbig]
        have hop : ChainOK a b (chainEnds gi gj group).1 (chainEnds gi gj group).2
            [op] := .cons _ _ _ _ h1 h2 h3 h4 h5 h6 h7 (.nil _ _)
        have hG1 := chain_append group gi gj _ hgch hop
        refine ih _ c d gi gj hG1.1 ?_ hcgi hdgj hoffp hpre hgia hgjb ?_ ?_
        · rw [hG1.2, chainEnds, chainEnds]
          exact h8
        · rw [hG1.2, chainEnds, chainEnds]
          exact htlen
        · rw [hG1.2, chainEnds, chainEnds]
          exact htsl

/-- Generation side of the round trip: any valid matching-block
decomposition yields a structurally sound group list. -/
theorem groups_of_valid {a b : List Str} (blocks : List (Nat × Nat × Nat))
    (hv : validBlocks a b blocks = true) :
    GroupsOK a b 0 0 (getGroupedOpcodes 3 (getOpcodes blocks)) := by
  obtain ⟨hch, hend⟩ := opcodes_chain blocks 0 0 (by omega) (by omega) hv
  rw [getOpcodes] at *
  by_cases hc : getOpcodesAux 0 0 blocks = []
  · rw [hc] at hend
    rw [chainEnds] at hend
    have hla : a.length = 0 := by
      have := congrArg Prod.fst hend
      simpa using this.symm
    have hlb : b.length = 0 := by
      have := congrArg Prod.snd hend
      simpa using this.symm
    rw [hc]
    have hempty : getGroupedOpcodes 3 [] = [] := rfl
    rw [hempty]
    refine .nil 0 0 (by omega) (by omega) (by omega) ?_
    rw [hla, hlb, slice_self, slice_self]
  · rw [getGroupedOpcodes, if_neg hc]
    obtain ⟨s0, hch1, hs0a, hs0b, hpre0, hendsH⟩ :=
      trimHead_spec 3 (getOpcodesAux 0 0 blocks) hch
    obtain ⟨hch2, hle1, hle2, hoff2, hsl2⟩ :=
      trimTail_spec 3 (trimHead 3 (getOpcodesAux 0 0 blocks)) s0 s0 hch1
    have hendsHla : chainEnds s0 s0 (trimHead 3 (getOpcodesAux 0 0 blocks)) =
        (a.length, b.length) := by
      rw [hendsH s0 s0]
      rw [chainEnds_nonempty _ s0 s0 0 0 hc]
      exact hend
    rw [hendsHla] at hle1 hle2 hoff2 hsl2
    refine groupSplit_ok 3 _ [] 0 0 s0 s0 (.nil _ _) ?_ (by omega) (by omega)
      (by omega) ?_ hs0a hs0b ?_ ?_
    · rw [chainEnds]
      exact hch2
    · simpa using hpre0
    · rw [chainEnds]
      exact hoff2
    · rw [chainEnds]
      exact hsl2

/-! ### The hunk body is consumed exactly by its line counts -/

theorem parseBody_space (r1 r2 : Nat) (l : Str) (ls : List Str)
    (h1 : l.head? = some ' ') :
    parseBody (r1 + 1) (r2 + 1) (l :: ls) =
      (parseBody r1 r2 ls).map (fun p => (l :: p.1, p.2)) := by
  rw [parseBody]
  case x_3 => simp
  rw [h1]
  simp only [Nat.add_sub_cancel, ne_eq, Nat.succ_ne_zero, not_false_eq_true,
    and_self, if_true]

theorem parseBody_minus (r1 r2 : Nat) (l : Str) (ls : List Str)
    (h1 : l.head? = some '-') :
    parseBody (r1 + 1) r2 (l :: ls) =
      (parseBody r1 r2 ls).map (fun p => (l :: p.1, p.2)) := by
  rw [parseBody]
  case x_3 => simp
  rw [h1]
  simp only [Nat.add_sub_cancel, ne_eq, Nat.succ_ne_zero, not_false_eq_true,
    if_true]

theorem parseBody_plus (r1 r2 : Nat) (l : Str) (ls : List Str)
    (h1 : l.head? = some '+') :
    parseBody r1 (r2 + 1) (l :: ls) =
      (parseBody r1 r2 ls).map (fun p => (l :: p.1, p.2)) := by
  cases r1 with
  | zero =>
    rw [parseBody]
    case x_3 => simp
    rw [h1]
    simp only [Nat.add_sub_cancel, ne_eq, Nat.succ_ne_zero, not_false_eq_true,
      if_true]
  | succ r1' =>
    rw [parseBody]
    case x_3 => simp
    rw [h1]
    simp only [Nat.add_sub_cancel, ne_eq, Nat.succ_ne_zero, not_false_eq_true,
      if_true]

theorem pb_ctx : ∀ (xs : List Str) (r1 r2 : Nat) (rest : List Str),
    parseBody (xs.length + r1) (xs.length + r2)
        (xs.map (fun l => ' ' :: l) ++ rest) =
      (parseBody r1 r2 rest).map
        (fun p => (xs.map (fun l => ' ' :: l) ++ p.1, p.2)) := by
  intro xs
  induction xs with
  | nil =>
    intro r1 r2 rest
    simp only [List.length_nil, Nat.zero_add, List.map_nil, List.nil_append]
    cases parseBody r1 r2 rest <;> rfl
  | cons x xs ih =>
    intro r1 r2 rest
    rw [List.map_cons, List.cons_append,
      show (x :: xs).length + r1 = (xs.length + r1) + 1 by simp; omega,
      show (x :: xs).length + r2 = (xs.length + r2) + 1 by simp; omega,
      parseBody_space (xs.length + r1) (xs.length + r2) (' ' :: x)
        (xs.map (fun l => ' ' :: l) ++ rest) rfl, ih]
    cases parseBody r1 r2 rest <;> rfl

theorem pb_minus_list : ∀ (xs : List Str) (r1 r2 : Nat) (rest : List Str),
    parseBody (xs.length + r1) r2 (xs.map (fun l => '-' :: l) ++ rest) =
      (parseBody r1 r2 rest).map
        (fun p => (xs.map (fun l => '-' :: l) ++ p.1, p.2)) := by
  intro xs
  induction xs with
  | nil =>
    intro r1 r2 rest
    simp only [List.length_nil, Nat.zero_add, List.map_nil, List.nil_append]
    cases parseBody r1 r2 rest <;> rfl
  | cons x xs ih =>
    intro r1 r2 rest
    rw [List.map_cons, List.cons_append,
      show (x :: xs).length + r1 = (xs.length + r1) + 1 by simp; omega,
      parseBody_minus (xs.length + r1) r2 ('-' :: x)
        (xs.map (fun l => '-' :: l) ++ rest) rfl, ih]
    cases parseBody r1 r2 rest <;> rfl

theorem pb_plus_list : ∀ (xs : List Str) (r1 r2 : Nat) (rest : List Str),
    parseBody r1 (xs.length + r2) (xs.map (fun l => '+' :: l) ++ rest) =
      (parseBody r1 r2 rest).map
        (fun p => (xs.map (fun l => '+' :: l) ++ p.1, p.2)) := by
  intro xs
  induction xs with
  | nil =>
    intro r1 r2 rest
    simp only [List.length_nil, Nat.zero_add, List.map_nil, List.nil_append]
    cases parseBody r1 r2 rest <;> rfl
  | cons x xs ih =>
    intro r1 r2 rest
    rw [List.map_cons, List.cons_append,
      show (x :: xs).length + r2 = (xs.length + r2) + 1 by simp; omega,
      parseBody_plus r1 (xs.length + r2) ('+' :: x)
        (xs.map (fun l => '+' :: l) ++ rest) rfl, ih]
    cases parseBody r1 r2 rest <;> rfl

theorem opcode_consume {a b : List Str} (op : Opcode) (h7 : TagOK a b op)
    (h3 : op.i1 ≤ op.i2) (h4 : op.j1 ≤ op.j2)
    (h5 : op.i2 ≤ a.length) (h6 : op.j2 ≤ b.length)
    (r1 r2 : Nat) (rest : List Str) :
    parseBody ((op.i2 - op.i1) + r1) ((op.j2 - op.j1) + r2)
        (opcodeLines a b op ++ rest) =
      (parseBody r1 r2 rest).map (fun p => (opcodeLines a b op ++ p.1, p.2)) := by
  have hlena : (slice a op.i1 op.i2).length = op.i2 - op.i1 := slice_length h3 h5
  have hlenb : (slice b op.j1 op.j2).length = op.j2 - op.j1 := slice_length h4 h6
  rw [opcodeLines]
  rw [TagOK] at h7
  cases ht : op.tag with
  | equal =>
    rw [ht] at h7
    rw [show op.j2 - op.j1 = op.i2 - op.i1 by omega, ← hlena]
    exact pb_ctx (slice a op.i1 op.i2) r1 r2 rest
  | replace =>
    rw [List.append_assoc, ← hlena, ← hlenb, pb_minus_list, pb_plus_list]
    cases parseBody r1 r2 rest <;> simp
  | delete =>
    rw [ht] at h7
    rw [show op.j2 - op.j1 = 0 by omega, Nat.zero_add, ← hlena]
    exact pb_minus_list (slice a op.i1 op.i2) r1 r2 rest
  | insert =>
    rw [ht] at h7
    rw [show op.i2 - op.i1 = 0 by omega, Nat.zero_add, ← hlenb]
    exact pb_plus_list (slice b op.j1 op.j2) r1 r2 rest

theorem chain_consume {a b : List Str} :
    ∀ (g : List Opcode) (s t : Nat), ChainOK a b s t g →
      ∀ (r1 r2 : Nat) (rest : List Str),
      parseBody (((chainEnds s t g).1 - s) + r1) (((chainEnds s t g).2 - t) + r2)
          (g.flatMap (opcodeLines a b) ++ rest) =
        (parseBody r1 r2 rest).map
          (fun p => (g.flatMap (opcodeLines a b) ++ p.1, p.2)) := by
  intro g
  induction g with
  | nil =>
    intro s t _ r1 r2 rest
    rw [chainEnds]
    simp only [Nat.sub_self, Nat.zero_add, List.flatMap_nil, List.nil_append]
    cases parseBody r1 r2 rest <;> rfl
  | cons op g' ih =>
    intro s t h r1 r2 rest
    cases h with
    | cons _ _ _ _ h1 h2 h3 h4 h5 h6 h7 h8 =>
      rw [chainEnds, List.flatMap_cons, List.append_assoc]
      obtain ⟨hm1, hm2⟩ := chainEnds_mono h8
      rw [show (chainEnds op.i2 op.j2 g').1 - s =
          (op.i2 - op.i1) + ((chainEnds op.i2 op.j2 g').1 - op.i2) by omega,
        show (chainEnds op.i2 op.j2 g').2 - t =
          (op.j2 - op.j1) + ((chainEnds op.i2 op.j2 g').2 - op.j2) by omega]
      rw [Nat.add_assoc, Nat.add_assoc,
        opcode_consume op h7 (by omega) (by omega) h5 h6, ih op.i2 op.j2 h8]
      cases parseBody r1 r2 rest <;> simp

/-! ### The context and `+` lines of a hunk body are the new-file slice -/

theorem emit_ctx (xs : List Str) :
    (xs.map (fun l => ' ' :: l)).filterMap emitLine = xs := by
  induction xs with
  | nil => rfl
  | cons x xs ih => simp [emitLine, ih]

theorem emit_plus (xs : List Str) :
    (xs.map (fun l => '+' :: l)).filterMap emitLine = xs := by
  induction xs with
  | nil => rfl
  | cons x xs ih => simp [emitLine, ih]

theorem emit_minus (xs : List Str) :
    (xs.map (fun l => '-' :: l)).filterMap emitLine = [] := by
  induction xs with
  | nil => rfl
  | cons x xs ih => simp [emitLine, ih]

theorem opcode_emit {a b : List Str} (op : Opcode) (h7 : TagOK a b op) :
    (opcodeLines a b op).filterMap emitLine = slice b op.j1 op.j2 := by
  rw [opcodeLines]
  rw [TagOK] at h7
  cases ht : op.tag with
  | equal =>
    rw [ht] at h7
    rw [emit_ctx]
    exact h7.2
  | replace => rw [List.filterMap_append, emit_minus, emit_plus, List.nil_append]
  | delete =>
    rw [ht] at h7
    rw [emit_minus, h7, slice_self]
  | insert => rw [emit_plus]

theorem chain_emit {a b : List Str} :
    ∀ (g : List Opcode) (s t : Nat), ChainOK a b s t g →
      (g.flatMap (opcodeLines a b)).filterMap emitLine =
        slice b t (chainEnds s t g).2 := by
  intro g
  induction g with
  | nil =>
    intro s t _
    rw [chainEnds, List.flatMap_nil, List.filterMap_nil, slice_self]
  | cons op g' ih =>
    intro s t h
    cases h with
    | cons _ _ _ _ h1 h2 h3 h4 h5 h6 h7 h8 =>
      rw [chainEnds, List.flatMap_cons, List.filterMap_append,
        opcode_emit op h7, ih op.i2 op.j2 h8]
      obtain ⟨hm1, hm2⟩ := chainEnds_mono h8
      rw [h2, ← slice_split (by omega) (by omega)]

/-! ### The generated hunk header parses back to the ranges it prints -/

theorem parseRange_format (s e : Nat) (t : Str)
    (ht : ∀ c, t.head? = some c → isDigitCh c = false ∧ c ≠ ',') :
    parseRange (formatRangeUnified s e ++ t) = some ((s, e - s), t) := by
  have htd : ∀ c, t.head? = some c → isDigitCh c = false := fun c hc => (ht c hc).1
  rw [formatRangeUnified]
  by_cases h1 : e - s = 1
  · rw [if_pos h1, parseRange, parseNat_natToStr (s + 1) t htd]
    split
    · rename_i heq
      simp at heq
    · rename_i l rest3 heq
      injection heq with h2
      injection h2 with h3 h4
      subst h3
      subst h4
      split
      · exact absurd rfl (ht ',' rfl).2
      · rw [h1]
        norm_num
  · rw [if_neg h1, List.append_assoc, List.append_assoc,
      List.singleton_append, parseRange,
      parseNat_natToStr _ (',' :: (natToStr (e - s) ++ t))
        (fun c hc => by rw [List.head?_cons, Option.some_inj] at hc; rw [← hc]; decide)]
    split
    · rename_i heq
      simp at heq
    · rename_i l rest3 heq
      injection heq with h2
      injection h2 with h3 h4
      subst h3
      subst h4
      split
      · rename_i rest2 heq2
        injection heq2 with _ h5
        subst h5
        rw [parseNat_natToStr (e - s) t htd]
        split
        · rename_i heq3
          simp at heq3
        · rename_i l2 rest4 heq3
          injection heq3 with h6
          injection h6 with h7 h8
          subst h7
          subst h8
          by_cases h0 : e - s = 0
          · simp [h0]
          · simp only [if_neg h0]
            norm_num
      · rename_i h
        exact (h (natToStr (e - s) ++ t) rfl).elim

theorem dropPrefix_append (p s : Str) : dropPrefix p (p ++ s) = some s := by
  rw [dropPrefix, if_pos]
  · rw [List.drop_left]
  · exact List.isPrefixOf_iff_prefix.mpr (List.prefix_append p s)

theorem head_space_facts (p X : Str) (hp : p.head? = some ' ') :
    ∀ c, (p ++ X).head? = some c → isDigitCh c = false ∧ c ≠ ',' := by
  intro c hc
  cases p with
  | nil => cases hp
  | cons c0 p' =>
    rw [List.head?_cons, Option.some_inj] at hp
    rw [List.cons_append, List.head?_cons, Option.some_inj] at hc
    subst hc
    rw [hp]
    exact ⟨by decide, by decide⟩

theorem parseHunkHeader_gen (s e t u : Nat) :
    parseHunkHeader (str "@@ -" ++ formatRangeUnified s e ++ str " +" ++
        formatRangeUnified t u ++ str " @@" ++ ['\n']) =
      some (s, e - s, t, u - t) := by
  have hs1 : ∀ c, (str " +" ++ (formatRangeUnified t u ++
      (str " @@" ++ ['\n']))).head? = some c → isDigitCh c = false ∧ c ≠ ',' :=
    head_space_facts (str " +") _ (by decide)
  have hs2 : ∀ c, (str " @@" ++ ['\n']).head? = some c →
      isDigitCh c = false ∧ c ≠ ',' :=
    head_space_facts (str " @@") ['\n'] (by decide)
  rw [show str "@@ -" ++ formatRangeUnified s e ++ str " +" ++
      formatRangeUnified t u ++ str " @@" ++ ['\n'] =
    str "@@ -" ++ (formatRangeUnified s e ++ (str " +" ++
      (formatRangeUnified t u ++ (str " @@" ++ ['\n'])))) by
        simp [List.append_assoc]]
  rw [parseHunkHeader]
  split
  · rename_i heq
    rw [dropPrefix_append] at heq
    cases heq
  · rename_i r1 heq
    rw [dropPrefix_append, Option.some_inj] at heq
    subst heq
    split
    · rename_i heq2
      rw [parseRange_format s e _ hs1] at heq2
      cases heq2
    · rename_i aS aL r2 heq2
      rw [parseRange_format s e _ hs1, Option.some_inj] at heq2
      injection heq2 with h1 h2
      injection h1 with h3 h4
      subst h3
      subst h4
      subst h2
      split
      · rename_i heq3
        rw [dropPrefix_append] at heq3
        cases heq3
      · rename_i r3 heq3
        rw [dropPrefix_append, Option.some_inj] at heq3
        subst heq3
        split
        · rename_i heq4
          rw [parseRange_format t u _ hs2] at heq4
          cases heq4
        · rename_i bS bL r4 heq4
          rw [parseRange_format t u _ hs2, Option.some_inj] at heq4
          injection heq4 with h5 h6
          injection h5 with h7 h8
          subst h7
          subst h8
          subst h6
          rw [if_pos rfl]


/-! ### Parsing and applying the hunks of a well-formed group list -/

theorem parseHunksF_nil (fuel : Nat) : parseHunksF fuel [] = some [] := by
  cases fuel <;> rfl

theorem groups_roundtrip {a b : List Str} :
    ∀ (gs : List (List Opcode)) (c d : Nat), GroupsOK a b c d gs →
      ∀ (out : List Str) (fuel : Nat),
        (gs.flatMap (hunkLines a b)).length ≤ fuel →
        (parseHunksF fuel (gs.flatMap (hunkLines a b))).bind
            (fun hunks => applyHunks c a hunks out) =
          some (out ++ slice b d b.length) := by
  intro gs
  induction gs with
  | nil =>
    intro c d h out fuel _
    cases h with
    | nil _ _ hc hd hlen heq =>
      rw [List.flatMap_nil, parseHunksF_nil, Option.some_bind, applyHunks,
        if_pos hc, slice_drop_eq, heq]
  | cons g gs' ih =>
    intro c d h out fuel hfuel
    cases h with
    | cons _ _ s t _ _ hne hcs hdt hoff hpre hsa htb hchain hrest =>
      obtain ⟨first, grest, rfl⟩ : ∃ f r, g = f :: r := by
        cases g with
        | nil => exact absurd rfl hne
        | cons f r => exact ⟨f, r, rfl⟩
      have hf1 : first.i1 = s := by
        cases hchain with
        | cons _ _ _ _ h1 _ _ _ _ _ _ _ => exact h1
      have hf2 : first.j1 = t := by
        cases hchain with
        | cons _ _ _ _ _ h2 _ _ _ _ _ _ => exact h2
      have hlast : ∀ (hx : (first :: grest) ≠ []),
          ((first :: grest).getLast hx).i2 =
              (chainEnds s t (first :: grest)).1 ∧
            ((first :: grest).getLast hx).j2 =
              (chainEnds s t (first :: grest)).2 := by
        intro hx
        rw [chainEnds_getLast? _ s t _ (List.getLast?_eq_getLast _ hx)]
        exact ⟨rfl, rfl⟩
      obtain ⟨hm1, hm2⟩ := chainEnds_mono hchain
      obtain ⟨hl1, hl2⟩ := chainEnds_le hchain hsa htb
      have hcons := chain_consume (first :: grest) s t hchain 0 0
        (gs'.flatMap (hunkLines a b))
      rw [Nat.add_zero, Nat.add_zero, parseBody] at hcons
      simp only [Option.map_some', List.append_nil] at hcons
      rw [List.flatMap_cons, hunkLines, List.cons_append] at hfuel ⊢
      rw [(hlast (by simp)).1, (hlast (by simp)).2, hf1, hf2]
      cases fuel with
      | zero => rw [List.length_cons] at hfuel; omega
      | succ fuel' =>
        rw [parseHunksF]
        split
        · rename_i heq
          rw [parseHunkHeader_gen] at heq
          cases heq
        · rename_i aS aL x bL heq
          rw [parseHunkHeader_gen, Option.some_inj] at heq
          injection heq with h1 h2
          injection h2 with h3 h4
          injection h4 with h5 h6
          subst h1
          subst h3
          subst h5
          subst h6
          split
          · rename_i heq2
            rw [hcons] at heq2
            cases heq2
          · rename_i bodyP rest heq2
            rw [hcons, Option.some_inj] at heq2
            injection heq2 with h7 h8
            subst h7
            subst h8
            have hfuel' : ((gs'.flatMap (hunkLines a b)).length ≤ fuel') := by
              rw [List.length_cons, List.length_append] at hfuel
              omega
            have ihx := ih (chainEnds s t (first :: grest)).1
              (chainEnds s t (first :: grest)).2 hrest
              (out ++ slice b d t ++ slice b t (chainEnds s t (first :: grest)).2)
              fuel' hfuel'
            cases hp : parseHunksF fuel' (gs'.flatMap (hunkLines a b)) with
            | none =>
              rw [hp] at ihx
              simp at ihx
            | some hs =>
              rw [hp] at ihx
              rw [Option.map_some', Option.some_bind]
              rw [Option.some_bind] at ihx
              rw [applyHunks, applyHunk,
                if_pos (⟨hcs, by
                  show s + ((chainEnds s t (first :: grest)).1 - s) ≤ a.length
                  omega⟩ :
                  c ≤ s ∧ s + ((chainEnds s t (first :: grest)).1 - s) ≤ a.length)]
              rw [show s + ((chainEnds s t (first :: grest)).1 - s) =
                  (chainEnds s t (first :: grest)).1 by omega]
              rw [chain_emit (first :: grest) s t hchain, hpre]
              show applyHunks (chainEnds s t (first :: grest)).1 a hs
                  (out ++ slice b d t ++
                    slice b t (chainEnds s t (first :: grest)).2) =
                some (out ++ slice b d b.length)
              rw [ihx]
              rw [List.append_assoc, List.append_assoc]
              rw [← slice_split hm2 hl2,
                ← slice_split hdt (Nat.le_trans hm2 hl2)]

/-! ### Every line the diff emits is a proper newline-terminated line -/

theorem slice_subset {α : Type} {x : α} {a : List α} {i e : Nat}
    (h : x ∈ slice a i e) : x ∈ a := by
  rw [slice] at h
  exact List.mem_of_mem_drop (List.mem_of_mem_take h)

/-- A clean line: newline-terminated text with no other line-break
character anywhere. -/
def CleanLine (l : Str) : Prop :=
  ∃ m, l = m ++ ['\n'] ∧ ∀ c ∈ m, isLineBreak c = false

theorem CleanLine.proper {l : Str} (h : CleanLine l) : ProperLine l := by
  obtain ⟨m, rfl, hm⟩ := h
  exact ⟨m, rfl, fun hmem => absurd (hm '\n' hmem) (by decide)⟩

theorem CleanLine.tag {c : Char} {l : Str} (hc : isLineBreak c = false)
    (h : CleanLine l) : CleanLine (c :: l) := by
  obtain ⟨m, rfl, hm⟩ := h
  refine ⟨c :: m, rfl, ?_⟩
  intro q hq
  rcases List.mem_cons.mp hq with rfl | hq
  · exact hc
  · exact hm q hq

theorem digit_not_break {c : Char} (h : isDigitCh c = true) :
    isLineBreak c = false := by
  cases hx : isLineBreak c
  · rfl
  · exfalso
    rw [isLineBreak] at hx
    simp only [Bool.or_eq_true, beq_iff_eq] at hx
    rcases hx with ((((((((h1 | h1) | h1) | h1) | h1) | h1) | h1) | h1) | h1) | h1 <;>
      (subst h1; revert h; decide)

theorem formatRange_no_break (s e : Nat) :
    ∀ c ∈ formatRangeUnified s e, isLineBreak c = false := by
  intro c hc
  rw [formatRangeUnified] at hc
  by_cases h1 : e - s = 1
  · rw [if_pos h1] at hc
    exact digit_not_break (natToStr_digits _ c hc).1
  · rw [if_neg h1] at hc
    rcases List.mem_append.mp hc with h | h
    · rcases List.mem_append.mp h with h2 | h2
      · exact digit_not_break (natToStr_digits _ c h2).1
      · rcases List.mem_singleton.mp h2 with rfl
        decide
    · exact digit_not_break (natToStr_digits _ c h).1

theorem opcodeLines_clean {A B : List Str} (hA : ∀ l ∈ A, CleanLine l)
    (hB : ∀ l ∈ B, CleanLine l) (op : Opcode) :
    ∀ l ∈ opcodeLines A B op, CleanLine l := by
  intro l hl
  have hmap : ∀ (c : Char) (xs : List Str), isLineBreak c = false →
      (∀ x ∈ xs, CleanLine x) → l ∈ xs.map (fun x => c :: x) → CleanLine l := by
    intro c xs hc hxs hmem
    obtain ⟨x, hx, rfl⟩ := List.mem_map.mp hmem
    exact CleanLine.tag hc (hxs x hx)
  have hAs : ∀ i e, ∀ x ∈ slice A i e, CleanLine x :=
    fun i e x hx => hA x (slice_subset hx)
  have hBs : ∀ i e, ∀ x ∈ slice B i e, CleanLine x :=
    fun i e x hx => hB x (slice_subset hx)
  cases htag : op.tag with
  | equal =>
    simp only [opcodeLines, htag] at hl
    exact hmap ' ' _ (by decide) (hAs _ _) hl
  | replace =>
    simp only [opcodeLines, htag] at hl
    rcases List.mem_append.mp hl with h | h
    · exact hmap '-' _ (by decide) (hAs _ _) h
    · exact hmap '+' _ (by decide) (hBs _ _) h
  | delete =>
    simp only [opcodeLines, htag] at hl
    exact hmap '-' _ (by decide) (hAs _ _) hl
  | insert =>
    simp only [opcodeLines, htag] at hl
    exact hmap '+' _ (by decide) (hBs _ _) hl

theorem header_clean (r1 r2 r3 r4 : Nat) :
    CleanLine (str "@@ -" ++ formatRangeUnified r1 r2 ++ str " +" ++
      formatRangeUnified r3 r4 ++ str " @@" ++ ['\n']) := by
  refine ⟨str "@@ -" ++ formatRangeUnified r1 r2 ++ str " +" ++
    formatRangeUnified r3 r4 ++ str " @@", rfl, ?_⟩
  intro c hmem
  rcases List.mem_append.mp hmem with h | h
  · rcases List.mem_append.mp h with h | h
    · rcases List.mem_append.mp h with h | h
      · rcases List.mem_append.mp h with h | h
        · exact (by decide : ∀ q ∈ str "@@ -", isLineBreak q = false) c h
        · exact formatRange_no_break r1 r2 c h
      · exact (by decide : ∀ q ∈ str " +", isLineBreak q = false) c h
    · exact formatRange_no_break r3 r4 c h
  · exact (by decide : ∀ q ∈ str " @@", isLineBreak q = false) c h

theorem hunkLines_clean {A B : List Str} (hA : ∀ l ∈ A, CleanLine l)
    (hB : ∀ l ∈ B, CleanLine l) (g : List Opcode) :
    ∀ l ∈ hunkLines A B g, CleanLine l := by
  intro l hl
  cases g with
  | nil => simp [hunkLines] at hl
  | cons first grest =>
    rw [hunkLines] at hl
    rcases List.mem_cons.mp hl with h | h
    · rw [h]
      exact header_clean _ _ _ _
    · obtain ⟨op, _, hlop⟩ := List.mem_flatMap.mp h
      exact opcodeLines_clean hA hB op l hlop

theorem fileHeader_clean (p f : Str) (hp : ∀ c ∈ p, isLineBreak c = false)
    (hf : ∀ c ∈ f, isLineBreak c = false) : CleanLine (p ++ f ++ ['\n']) := by
  refine ⟨p ++ f, rfl, ?_⟩
  intro c hmem
  rcases List.mem_append.mp hmem with h | h
  · exact hp c h
  · exact hf c h

/-! ### `splitlines` agrees with `'\n'`-only splitting on clean text -/

theorem splitLinesF_eq_splitKeepNL :
    ∀ (fuel : Nat) (s : Str), s.length ≤ fuel →
      (∀ c ∈ s, isLineBreak c = true → c = '\n') →
      splitLinesF fuel s = splitKeepNL s := by
  intro fuel
  induction fuel with
  | zero =>
    intro s hl _
    cases s with
    | nil => rfl
    | cons c rest => simp at hl
  | succ fuel ih =>
    intro s hl hb
    cases s with
    | nil => rfl
    | cons c rest =>
      rw [splitLinesF]
      have hcr : c ≠ '\r' := by
        intro hc
        have h2 := hb c (List.mem_cons_self c rest) (by rw [hc]; decide)
        rw [hc] at h2
        exact absurd h2 (by decide)
      rw [if_neg hcr]
      rw [List.length_cons] at hl
      by_cases hbr : isLineBreak c = true
      · obtain rfl : c = '\n' := hb c (List.mem_cons_self c rest) hbr
        rw [if_pos hbr, splitKeepNL, if_pos rfl,
          ih rest (by omega) fun q hq => hb q (List.mem_cons_of_mem _ hq)]
      · have hcn : c ≠ '\n' := fun hc => hbr (by rw [hc]; decide)
        rw [if_neg hbr, splitKeepNL, if_neg hcn,
          ih rest (by omega) fun q hq => hb q (List.mem_cons_of_mem _ hq)]

theorem splitLines_eq_splitKeepNL (s : Str)
    (hb : ∀ c ∈ s, isLineBreak c = true → c = '\n') :
    splitLines s = splitKeepNL s :=
  splitLinesF_eq_splitKeepNL s.length s (Nat.le_refl _) hb

theorem onlyNL_spec {s : Str} (h : onlyNL s = true) :
    ∀ c ∈ s, isLineBreak c = true → c = '\n' := by
  intro c hc hbr
  have h2 := List.all_eq_true.mp h c hc
  rw [hbr] at h2
  simpa using h2

theorem noBreak_spec {s : Str} (h : noBreak s = true) :
    ∀ c ∈ s, isLineBreak c = false := by
  intro c hc
  have h2 := List.all_eq_true.mp h c hc
  simpa using h2

theorem splitKeepNL_clean {s : Str} (hend : endsNL s = true)
    (hb : ∀ c ∈ s, isLineBreak c = true → c = '\n') :
    ∀ l ∈ splitKeepNL s, CleanLine l := by
  intro l hl
  obtain ⟨m, rfl, hm⟩ := splitKeepNL_proper_of_endsNL s hend l hl
  refine ⟨m, rfl, ?_⟩
  intro c hc
  cases hx : isLineBreak c
  · rfl
  · exfalso
    have hcs : c ∈ s := by
      rw [← splitKeepNL_flatten s]
      exact List.mem_flatten.mpr ⟨m ++ ['\n'], hl, List.mem_append.mpr (.inl hc)⟩
    have h2 := hb c hcs hx
    exact hm (h2 ▸ hc)


/-! ### Soundness of the matcher: every emitted block is a real match -/

theorem getD_lt {α : Type} (d : α) {l : List α} {n : Nat} (h : n < l.length) :
    l.getD n d = l[n] := by
  rw [List.getD_eq_getElem?_getD, List.getElem?_eq_getElem h]
  rfl

theorem slice_singleton {α : Type} (d : α) {a : List α} {i : Nat}
    (h : i < a.length) : slice a i (i + 1) = [a.getD i d] := by
  rw [slice, show i + 1 - i = 1 by omega, getD_lt d h,
    List.drop_eq_getElem_cons h]
  rfl

theorem b2jGet_mem {b : List Line} {x : Line} {j : Nat} (h : j ∈ b2jGet b x) :
    b.getD j [] = x ∧ j < b.length := by
  simp only [b2jGet] at h
  split at h
  · cases h
  · obtain ⟨h1, h2⟩ := List.mem_filter.mp h
    exact ⟨of_decide_eq_true h2, List.mem_range.mp h1⟩

theorem lookupD_nil (q : Nat) : lookupD [] q = 0 := rfl

theorem lookupD_cons (j k q : Nat) (m : List (Nat × Nat)) :
    lookupD ((j, k) :: m) q = if j = q then k else lookupD m q := by
  by_cases h : j = q
  · simp [lookupD, List.find?_cons, h]
  · simp [lookupD, List.find?_cons, h]

/-- What the running best of `find_longest_match` always satisfies: it lies
inside the window and its two slices are equal. -/
def MatchOK (a b : List Line) (alo ahi blo bhi : Nat) (st : Best) : Prop :=
  alo ≤ st.besti ∧ blo ≤ st.bestj ∧ st.besti + st.bestsize ≤ ahi ∧
  st.bestj + st.bestsize ≤ bhi ∧
  slice a st.besti (st.besti + st.bestsize) =
    slice b st.bestj (st.bestj + st.bestsize)

theorem MatchOK_mk {a b : List Line} {alo ahi blo bhi bi bj k : Nat}
    (h1 : alo ≤ bi) (h2 : blo ≤ bj) (h3 : bi + k ≤ ahi) (h4 : bj + k ≤ bhi)
    (h5 : slice a bi (bi + k) = slice b bj (bj + k)) :
    MatchOK a b alo ahi blo bhi ⟨bi, bj, k⟩ :=
  ⟨h1, h2, h3, h4, h5⟩

/-- The `j2len` dictionary invariant: an entry `j ↦ k` (with `k ≥ 1`) says
the `k` elements of `a` ending at boundary `i` match the `k` elements of
`b` ending at boundary `j+1`, all inside the window. -/
def J2L (a b : List Line) (alo blo ahi bhi i : Nat)
    (m : List (Nat × Nat)) : Prop :=
  ∀ j, 1 ≤ lookupD m j →
    alo + lookupD m j ≤ i ∧ blo + lookupD m j ≤ j + 1 ∧ j < bhi ∧ i ≤ ahi ∧
    slice a (i - lookupD m j) i = slice b (j + 1 - lookupD m j) (j + 1)

theorem J2L_nil {a b : List Line} {alo blo ahi bhi p : Nat} :
    J2L a b alo blo ahi bhi p [] := by
  intro j h
  rw [lookupD_nil] at h
  omega

theorem flmInner_ok {a b : List Line} {alo ahi blo bhi i : Nat}
    {j2len : List (Nat × Nat)}
    (hJ : J2L a b alo blo ahi bhi i j2len)
    (hai : alo ≤ i) (hia : i < ahi) (hla : ahi ≤ a.length)
    (hlb : bhi ≤ b.length) :
    ∀ (js : List Nat) (newm : List (Nat × Nat)) (st : Best),
      (∀ j ∈ js, b.getD j [] = a.getD i [] ∧ j < b.length) →
      J2L a b alo blo ahi bhi (i + 1) newm →
      MatchOK a b alo ahi blo bhi st →
      J2L a b alo blo ahi bhi (i + 1)
          (flmInner j2len blo bhi i js newm st).1 ∧
        MatchOK a b alo ahi blo bhi (flmInner j2len blo bhi i js newm st).2 := by
  intro js
  induction js with
  | nil => intro newm st _ hN hM; exact ⟨hN, hM⟩
  | cons j js ih =>
    intro newm st hjs hN hM
    simp only [flmInner]
    by_cases h1 : j < blo
    · rw [if_pos h1]
      exact ih newm st (fun q hq => hjs q (List.mem_cons_of_mem j hq)) hN hM
    · rw [if_neg h1]
      by_cases h2 : bhi ≤ j
      · rw [if_pos h2]
        exact ⟨hN, hM⟩
      · rw [if_neg h2]
        obtain ⟨hbj, hjb⟩ := hjs j (List.mem_cons_self j js)
        have hsing : slice a i (i + 1) = slice b j (j + 1) := by
          rw [slice_singleton ([] : Line) (show i < a.length by omega),
            slice_singleton ([] : Line) hjb, hbj]
        have hE : alo + ((if j = 0 then 0 else lookupD j2len (j - 1)) + 1) ≤ i + 1 ∧
            blo + ((if j = 0 then 0 else lookupD j2len (j - 1)) + 1) ≤ j + 1 ∧
            slice a (i + 1 - ((if j = 0 then 0 else lookupD j2len (j - 1)) + 1))
                (i + 1) =
              slice b (j + 1 - ((if j = 0 then 0 else lookupD j2len (j - 1)) + 1))
                (j + 1) := by
          by_cases hj0 : j = 0
          · rw [if_pos hj0]
            subst hj0
            refine ⟨by omega, by omega, ?_⟩
            rw [show i + 1 - (0 + 1) = i by omega,
              show 0 + 1 - (0 + 1) = 0 by omega]
            exact hsing
          · rw [if_neg hj0]
            by_cases hk0 : lookupD j2len (j - 1) = 0
            · rw [hk0]
              refine ⟨by omega, by omega, ?_⟩
              rw [show i + 1 - (0 + 1) = i by omega,
                show j + 1 - (0 + 1) = j by omega]
              exact hsing
            · obtain ⟨e1, e2, e3, e4, e5⟩ := hJ (j - 1) (by omega)
              rw [show j - 1 + 1 = j by omega] at e2 e5
              refine ⟨by omega, by omega, ?_⟩
              rw [show i + 1 - (lookupD j2len (j - 1) + 1) =
                  i - lookupD j2len (j - 1) by omega,
                show j + 1 - (lookupD j2len (j - 1) + 1) =
                  j - lookupD j2len (j - 1) by omega,
                slice_split (show i - lookupD j2len (j - 1) ≤ i by omega)
                  (show i ≤ i + 1 by omega),
                slice_split (show j - lookupD j2len (j - 1) ≤ j by omega)
                  (show j ≤ j + 1 by omega),
                e5, hsing]
        apply ih
        · exact fun q hq => hjs q (List.mem_cons_of_mem j hq)
        · intro q hq
          rw [lookupD_cons] at hq ⊢
          by_cases hjq : j = q
          · rw [if_pos hjq] at hq ⊢
            subst hjq
            exact ⟨hE.1, hE.2.1, by omega, by omega, hE.2.2⟩
          · rw [if_neg hjq] at hq ⊢
            exact hN q hq
        · by_cases hlt : st.bestsize <
              (if j = 0 then 0 else lookupD j2len (j - 1)) + 1
          · rw [if_pos hlt]
            refine MatchOK_mk (by omega) (by omega) ?_ ?_ ?_
            · show i + 1 - ((if j = 0 then 0 else lookupD j2len (j - 1)) + 1) +
                ((if j = 0 then 0 else lookupD j2len (j - 1)) + 1) ≤ ahi
              omega
            · show j + 1 - ((if j = 0 then 0 else lookupD j2len (j - 1)) + 1) +
                ((if j = 0 then 0 else lookupD j2len (j - 1)) + 1) ≤ bhi
              omega
            · rw [show i + 1 - ((if j = 0 then 0 else lookupD j2len (j - 1)) + 1) +
                  ((if j = 0 then 0 else lookupD j2len (j - 1)) + 1) = i + 1 by omega,
                show j + 1 - ((if j = 0 then 0 else lookupD j2len (j - 1)) + 1) +
                  ((if j = 0 then 0 else lookupD j2len (j - 1)) + 1) = j + 1 by omega]
              exact hE.2.2
          · rw [if_neg hlt]
            exact hM

theorem flmOuter_ok {a b : List Line} {alo ahi blo bhi : Nat}
    (hla : ahi ≤ a.length) (hlb : bhi ≤ b.length) :
    ∀ (n i0 : Nat) (m : List (Nat × Nat)) (st : Best),
      alo ≤ i0 → i0 + n ≤ ahi →
      J2L a b alo blo ahi bhi i0 m →
      MatchOK a b alo ahi blo bhi st →
      MatchOK a b alo ahi blo bhi
        (flmOuter a b blo bhi (List.range' i0 n) m st) := by
  intro n
  induction n with
  | zero =>
    intro i0 m st _ _ _ hM
    exact hM
  | succ n ih =>
    intro i0 m st h1 h2 hJ hM
    rw [List.range'_succ]
    simp only [flmOuter]
    have hin := flmInner_ok hJ h1 (by omega) hla hlb
      (b2jGet b (a.getD i0 [])) [] st
      (fun j hj => b2jGet_mem hj) J2L_nil hM
    exact ih (i0 + 1) _ _ (by omega) (by omega) hin.1 hin.2

theorem extendLowerF_ok {a b : List Line} {alo ahi blo bhi : Nat}
    (hla : ahi ≤ a.length) (hlb : bhi ≤ b.length) :
    ∀ (fuel : Nat) (st : Best), MatchOK a b alo ahi blo bhi st →
      MatchOK a b alo ahi blo bhi (extendLowerF a b alo blo fuel st) := by
  intro fuel
  induction fuel with
  | zero => intro st h; exact h
  | succ fuel ih =>
    intro st h
    rw [extendLowerF]
    split
    · rename_i hcond
      obtain ⟨hc1, hc2, hc3⟩ := hcond
      obtain ⟨h1, h2, h3, h4, h5⟩ := h
      apply ih
      refine MatchOK_mk (by omega) (by omega) ?_ ?_ ?_
      · show st.besti - 1 + (st.bestsize + 1) ≤ ahi
        omega
      · show st.bestj - 1 + (st.bestsize + 1) ≤ bhi
        omega
      · rw [show st.besti - 1 + (st.bestsize + 1) = st.besti + st.bestsize by
            omega,
          show st.bestj - 1 + (st.bestsize + 1) = st.bestj + st.bestsize by
            omega,
          slice_split (show st.besti - 1 ≤ st.besti by omega)
            (show st.besti ≤ st.besti + st.bestsize by omega),
          slice_split (show st.bestj - 1 ≤ st.bestj by omega)
            (show st.bestj ≤ st.bestj + st.bestsize by omega),
          h5]
        have e1 : slice a (st.besti - 1) st.besti = [a.getD (st.besti - 1) []] := by
          rw [show st.besti = st.besti - 1 + 1 by omega]
          exact slice_singleton [] (by omega)
        have e2 : slice b (st.bestj - 1) st.bestj = [b.getD (st.bestj - 1) []] := by
          rw [show st.bestj = st.bestj - 1 + 1 by omega]
          exact slice_singleton [] (by omega)
        rw [e1, e2, hc3]
    · exact h

theorem extendUpperF_ok {a b : List Line} {alo ahi blo bhi : Nat}
    (hla : ahi ≤ a.length) (hlb : bhi ≤ b.length) :
    ∀ (fuel : Nat) (st : Best), MatchOK a b alo ahi blo bhi st →
      MatchOK a b alo ahi blo bhi (extendUpperF a b ahi bhi fuel st) := by
  intro fuel
  induction fuel with
  | zero => intro st h; exact h
  | succ fuel ih =>
    intro st h
    rw [extendUpperF]
    split
    · rename_i hcond
      obtain ⟨hc1, hc2, hc3⟩ := hcond
      obtain ⟨h1, h2, h3, h4, h5⟩ := h
      apply ih
      refine MatchOK_mk h1 h2 ?_ ?_ ?_
      · show st.besti + (st.bestsize + 1) ≤ ahi
        omega
      · show st.bestj + (st.bestsize + 1) ≤ bhi
        omega
      · rw [show st.besti + (st.bestsize + 1) = st.besti + st.bestsize + 1 by
            omega,
          show st.bestj + (st.bestsize + 1) = st.bestj + st.bestsize + 1 by
            omega,
          slice_split (show st.besti ≤ st.besti + st.bestsize by omega)
            (show st.besti + st.bestsize ≤ st.besti + st.bestsize + 1 by omega),
          slice_split (show st.bestj ≤ st.bestj + st.bestsize by omega)
            (show st.bestj + st.bestsize ≤ st.bestj + st.bestsize + 1 by omega),
          h5, slice_singleton ([] : Line) (show st.besti + st.bestsize < a.length
            by omega),
          slice_singleton ([] : Line) (show st.bestj + st.bestsize < b.length
            by omega),
          hc3]
    · exact h

theorem findLongestMatch_ok {a b : List Line} {alo ahi blo bhi : Nat}
    (h1 : alo ≤ ahi) (h2 : blo ≤ bhi)
    (hla : ahi ≤ a.length) (hlb : bhi ≤ b.length) :
    MatchOK a b alo ahi blo bhi (findLongestMatch a b alo ahi blo bhi) := by
  simp only [findLongestMatch]
  rw [extendUpper, extendLower]
  apply extendUpperF_ok hla hlb
  apply extendLowerF_ok hla hlb
  apply flmOuter_ok hla hlb (ahi - alo) alo [] _ (Nat.le_refl alo) (by omega)
    J2L_nil
  refine MatchOK_mk (Nat.le_refl alo) (Nat.le_refl blo) (by omega) (by omega) ?_
  rw [Nat.add_zero, Nat.add_zero, slice_self, slice_self]

/-! ### The queue loop: blocks are genuine, in-bounds and pairwise separated -/

/-- A well-formed window `(alo, ahi, blo, bhi)`: inside both sequences. -/
def WinOK (a b : List Line) (w : Nat × Nat × Nat × Nat) : Prop :=
  w.1 ≤ w.2.1 ∧ w.2.1 ≤ a.length ∧ w.2.2.1 ≤ w.2.2.2 ∧ w.2.2.2 ≤ b.length

/-- A sound matching block: nonempty, in bounds, equal slices. -/
def BlkOK (a b : List Line) (x : Nat × Nat × Nat) : Prop :=
  1 ≤ x.2.2 ∧ x.1 + x.2.2 ≤ a.length ∧ x.2.1 + x.2.2 ≤ b.length ∧
  slice a x.1 (x.1 + x.2.2) = slice b x.2.1 (x.2.1 + x.2.2)

/-- Block `x` ends before block `y` starts, in both coordinates. -/
def Before (x y : Nat × Nat × Nat) : Prop :=
  x.1 + x.2.2 ≤ y.1 ∧ x.2.1 + x.2.2 ≤ y.2.1

/-- Two blocks are separated (one wholly before the other). -/
def Sep (x y : Nat × Nat × Nat) : Prop := Before x y ∨ Before y x

/-- Block `x` is separated from window `w` (wholly before or after it). -/
def BW (x : Nat × Nat × Nat) (w : Nat × Nat × Nat × Nat) : Prop :=
  (x.1 + x.2.2 ≤ w.1 ∧ x.2.1 + x.2.2 ≤ w.2.2.1) ∨
  (w.2.1 ≤ x.1 ∧ w.2.2.2 ≤ x.2.1)

/-- Two windows are separated (one wholly before the other). -/
def WW (v w : Nat × Nat × Nat × Nat) : Prop :=
  (v.2.1 ≤ w.1 ∧ v.2.2.2 ≤ w.2.2.1) ∨ (w.2.1 ≤ v.1 ∧ w.2.2.2 ≤ v.2.2.1)

/-- `s` is a sub-window of `v`. -/
def SubW (s v : Nat × Nat × Nat × Nat) : Prop :=
  v.1 ≤ s.1 ∧ s.2.1 ≤ v.2.1 ∧ v.2.2.1 ≤ s.2.2.1 ∧ s.2.2.2 ≤ v.2.2.2

theorem WW_of_sub {s v w : Nat × Nat × Nat × Nat} (hs : SubW s v)
    (h : WW v w) : WW s w := by
  rw [SubW] at hs
  rw [WW] at h ⊢
  omega

theorem BW_of_sub {x : Nat × Nat × Nat} {s v : Nat × Nat × Nat × Nat}
    (hs : SubW s v) (h : BW x v) : BW x s := by
  rw [SubW] at hs
  rw [BW] at h ⊢
  omega

theorem mem_opt {α : Type} {x y : α} {c : Prop} [Decidable c]
    (h : x ∈ (if c then [y] else [])) : x = y ∧ c := by
  split at h
  · rename_i hc
    rcases List.mem_singleton.mp h with rfl
    exact ⟨rfl, hc⟩
  · cases h

theorem pairwise_opt {α : Type} {R : α → α → Prop} {c : Prop} [Decidable c]
    {y : α} : List.Pairwise R (if c then [y] else []) := by
  split
  · exact List.pairwise_singleton _ _
  · exact List.Pairwise.nil

theorem gmbLoop_ok {a b : List Line} :
    ∀ (fuel : Nat) (queue : List (Nat × Nat × Nat × Nat))
      (acc : List (Nat × Nat × Nat)),
      (∀ w ∈ queue, WinOK a b w) →
      List.Pairwise WW queue →
      (∀ x ∈ acc, BlkOK a b x) →
      List.Pairwise Sep acc →
      (∀ x ∈ acc, ∀ w ∈ queue, BW x w) →
      (∀ x ∈ gmbLoop a b fuel queue acc, BlkOK a b x) ∧
        List.Pairwise Sep (gmbLoop a b fuel queue acc) := by
  intro fuel
  induction fuel with
  | zero =>
    intro queue acc _ _ hB hP _
    rw [gmbLoop]
    exact ⟨hB, hP⟩
  | succ fuel ih =>
    intro queue acc hW hPW hB hP hBW
    cases queue with
    | nil =>
      rw [gmbLoop]
      exact ⟨hB, hP⟩
    | cons w rest =>
      obtain ⟨alo, ahi, blo, bhi⟩ := w
      obtain ⟨q1, q2, q3, q4⟩ := hW _ (List.mem_cons_self _ _)
      dsimp only at q1 q2 q3 q4
      obtain ⟨m1, m2, m3, m4, m5⟩ := findLongestMatch_ok q1 q3 q2 q4
        (a := a) (b := b)
      cases hPW with
      | cons hww hPW2 =>
        simp only [gmbLoop]
        split
        · exact ih rest acc (fun w hw => hW w (List.mem_cons_of_mem _ hw)) hPW2
            hB hP (fun x hx w hw => hBW x hx w (List.mem_cons_of_mem _ hw))
        · rename_i hsz
          set st := findLongestMatch a b alo ahi blo bhi with hst
          have hsubU : SubW (st.besti + st.bestsize, ahi, st.bestj + st.bestsize,
              bhi) (alo, ahi, blo, bhi) := by
            rw [SubW]
            dsimp only
            omega
          have hsubL : SubW (alo, st.besti, blo, st.bestj)
              (alo, ahi, blo, bhi) := by
            rw [SubW]
            dsimp only
            omega
          apply ih
          · intro w' hw'
            rcases List.mem_append.mp hw' with h | h
            · rcases List.mem_append.mp h with h | h
              · obtain ⟨rfl, -⟩ := mem_opt h
                exact ⟨m3, q2, m4, q4⟩
              · obtain ⟨rfl, -⟩ := mem_opt h
                refine ⟨m1, by dsimp only; omega, m2, by dsimp only; omega⟩
            · exact hW w' (List.mem_cons_of_mem _ h)
          · rw [List.append_assoc]
            refine List.pairwise_append.mpr ⟨pairwise_opt, ?_, ?_⟩
            · refine List.pairwise_append.mpr ⟨pairwise_opt, hPW2, ?_⟩
              intro u hu r hr
              obtain ⟨rfl, -⟩ := mem_opt hu
              exact WW_of_sub hsubL (hww r hr)
            · intro u hu v hv
              obtain ⟨rfl, -⟩ := mem_opt hu
              rcases List.mem_append.mp hv with h | h
              · obtain ⟨rfl, -⟩ := mem_opt h
                rw [WW]
                dsimp only
                omega
              · exact WW_of_sub hsubU (hww v h)
          · intro x hx
            rcases List.mem_append.mp hx with h | h
            · exact hB x h
            · rcases List.mem_singleton.mp h with rfl
              refine ⟨?_, ?_, ?_, m5⟩
              · dsimp only
                omega
              · dsimp only
                omega
              · dsimp only
                omega
          · refine List.pairwise_append.mpr
              ⟨hP, List.pairwise_singleton _ _, ?_⟩
            intro x hx y hy
            rcases List.mem_singleton.mp hy with rfl
            have := hBW x hx _ (List.mem_cons_self _ _)
            rw [BW] at this
            rw [Sep, Before, Before]
            dsimp only at this ⊢
            omega
          · intro x hx w' hw'
            rcases List.mem_append.mp hx with hxa | hxn
            · rcases List.mem_append.mp hw' with h | h
              · rcases List.mem_append.mp h with h | h
                · obtain ⟨rfl, -⟩ := mem_opt h
                  exact BW_of_sub hsubU (hBW x hxa _ (List.mem_cons_self _ _))
                · obtain ⟨rfl, -⟩ := mem_opt h
                  exact BW_of_sub hsubL (hBW x hxa _ (List.mem_cons_self _ _))
              · exact hBW x hxa w' (List.mem_cons_of_mem _ h)
            · rcases List.mem_singleton.mp hxn with rfl
              rcases List.mem_append.mp hw' with h | h
              · rcases List.mem_append.mp h with h | h
                · obtain ⟨rfl, -⟩ := mem_opt h
                  rw [BW]
                  dsimp only
                  omega
                · obtain ⟨rfl, -⟩ := mem_opt h
                  rw [BW]
                  dsimp only
                  omega
              · have := hww w' h
                rw [WW] at this
                rw [BW]
                dsimp only at this ⊢
                omega

/-! ### Sorting the blocks: permutation, order, and the resulting chain -/

theorem insertSorted_perm {α : Type} (le : α → α → Bool) (x : α) :
    ∀ l : List α, (insertSorted le x l).Perm (x :: l) := by
  intro l
  induction l with
  | nil => exact List.Perm.refl _
  | cons y ys ih =>
    rw [insertSorted]
    split
    · exact (ih.cons y).trans (List.Perm.swap x y ys)
    · exact List.Perm.refl _

theorem insertionSort_perm {α : Type} (le : α → α → Bool) :
    ∀ l : List α, (insertionSort le l).Perm l := by
  intro l
  induction l with
  | nil => exact List.Perm.refl _
  | cons x xs ih =>
    rw [insertionSort]
    exact (insertSorted_perm le x _).trans (ih.cons x)

theorem insertSorted_sorted {α : Type} {le : α → α → Bool}
    (htot : ∀ x y, le x y = true ∨ le y x = true)
    (htrans : ∀ x y z, le x y = true → le y z = true → le x z = true)
    (x : α) : ∀ l, List.Pairwise (fun u v => le u v = true) l →
      List.Pairwise (fun u v => le u v = true) (insertSorted le x l) := by
  intro l
  induction l with
  | nil => intro _; exact List.pairwise_singleton _ _
  | cons y ys ih =>
    intro hp
    cases hp with
    | cons hy hys =>
      rw [insertSorted]
      split
      · rename_i hle
        refine List.Pairwise.cons ?_ (ih hys)
        intro v hv
        rcases List.mem_cons.mp ((insertSorted_perm le x ys).mem_iff.mp hv)
          with rfl | hvy
        · exact hle
        · exact hy v hvy
      · rename_i hnle
        have hxy : le x y = true := by
          rcases htot x y with h | h
        
          · exact h
          · exact absurd h hnle
        refine List.Pairwise.cons ?_ (List.Pairwise.cons hy hys)
        intro v hv
        rcases List.mem_cons.mp hv with rfl | hvy
        · exact hxy
        · exact htrans x y v hxy (hy v hvy)

theorem insertionSort_sorted {α : Type} {le : α → α → Bool}
    (htot : ∀ x y, le x y = true ∨ le y x = true)
    (htrans : ∀ x y z, le x y = true → le y z = true → le x z = true) :
    ∀ l : List α, List.Pairwise (fun u v => le u v = true) (insertionSort le l) := by
  intro l
  induction l with
  | nil => exact List.Pairwise.nil
  | cons x xs ih =>
    rw [insertionSort]
    exact insertSorted_sorted htot htrans x _ ih

theorem blockLE_total (x y : Nat × Nat × Nat) :
    blockLE x y = true ∨ blockLE y x = true := by
  rw [blockLE, blockLE, decide_eq_true_eq, decide_eq_true_eq]
  omega

theorem blockLE_trans (x y z : Nat × Nat × Nat) :
    blockLE x y = true → blockLE y z = true → blockLE x z = true := by
  rw [blockLE, blockLE, blockLE, decide_eq_true_eq, decide_eq_true_eq,
    decide_eq_true_eq]
  omega

theorem Sep_symm : ∀ {x y : Nat × Nat × Nat}, Sep x y → Sep y x :=
  fun h => h.symm

theorem sorted_sep_before {l : List (Nat × Nat × Nat)}
    (hs : List.Pairwise (fun u v => blockLE u v = true) l)
    (hsep : List.Pairwise Sep l) (hk : ∀ x ∈ l, 1 ≤ x.2.2) :
    List.Pairwise Before l := by
  refine List.Pairwise.imp_of_mem ?_ (hs.and hsep)
  intro u v hu hv hand
  obtain ⟨h1, h2⟩ := hand
  rcases h2 with h2 | h2
  · exact h2
  · exfalso
    rw [blockLE, decide_eq_true_eq] at h1
    have hkv := hk v hv
    rw [Before] at h2
    omega

/-! ### Merging adjacent blocks and the final validity theorem -/

theorem validBlocksFrom_sentinel (a b : List Line) (i j : Nat) :
    validBlocksFrom a b i j [(a.length, b.length, 0)] =
      (decide (i ≤ a.length) && decide (j ≤ b.length)) := by
  rw [validBlocksFrom]
  simp

theorem validBlocksFrom_cons2 (a b : List Line) (i j ai bj k : Nat)
    (y : Nat × Nat × Nat) (rest : List (Nat × Nat × Nat)) :
    validBlocksFrom a b i j ((ai, bj, k) :: y :: rest) =
      (decide (i ≤ ai) && decide (j ≤ bj) && decide (ai + k ≤ a.length) &&
       decide (bj + k ≤ b.length) &&
       decide (slice a ai (ai + k) = slice b bj (bj + k)) &&
       validBlocksFrom a b (ai + k) (bj + k) (y :: rest)) := by
  rw [validBlocksFrom]
  case x_3 => simp

theorem validBlocksFrom_cons' (a b : List Line) (i j ai bj k : Nat)
    (rest : List (Nat × Nat × Nat)) (h : rest ≠ []) :
    validBlocksFrom a b i j ((ai, bj, k) :: rest) =
      (decide (i ≤ ai) && decide (j ≤ bj) && decide (ai + k ≤ a.length) &&
       decide (bj + k ≤ b.length) &&
       decide (slice a ai (ai + k) = slice b bj (bj + k)) &&
       validBlocksFrom a b (ai + k) (bj + k) rest) := by
  cases rest with
  | nil => exact absurd rfl h
  | cons y ys => exact validBlocksFrom_cons2 a b i j ai bj k y ys

theorem nonAdjacent_valid {a b : List Line} :
    ∀ (l : List (Nat × Nat × Nat)) (i1 j1 k1 c1 c2 : Nat),
      c1 ≤ i1 → c2 ≤ j1 →
      i1 + k1 ≤ a.length → j1 + k1 ≤ b.length →
      slice a i1 (i1 + k1) = slice b j1 (j1 + k1) →
      (∀ x ∈ l, BlkOK a b x ∧ i1 + k1 ≤ x.1 ∧ j1 + k1 ≤ x.2.1) →
      List.Pairwise Before l →
      validBlocksFrom a b c1 c2
        (nonAdjacent i1 j1 k1 l ++ [(a.length, b.length, 0)]) = true := by
  intro l
  induction l with
  | nil =>
    intro i1 j1 k1 c1 c2 h1 h2 h3 h4 h5 _ _
    rw [nonAdjacent]
    by_cases hk : k1 ≠ 0
    · rw [if_pos hk, List.singleton_append,
        validBlocksFrom_cons' a b c1 c2 i1 j1 k1 _ (by simp),
        validBlocksFrom_sentinel]
      simp only [Bool.and_eq_true, decide_eq_true_eq]
      exact ⟨⟨⟨⟨⟨h1, h2⟩, h3⟩, h4⟩, h5⟩, by omega, by omega⟩
    · rw [if_neg hk, List.nil_append, validBlocksFrom_sentinel]
      simp only [Bool.and_eq_true, decide_eq_true_eq]
      exact ⟨by omega, by omega⟩
  | cons hd tl ih =>
    obtain ⟨i2, j2, k2⟩ := hd
    intro i1 j1 k1 c1 c2 h1 h2 h3 h4 h5 hall hpw
    obtain ⟨⟨hb1, hb2, hb3, hb4⟩, hs1, hs2⟩ := hall _ (List.mem_cons_self _ _)
    dsimp only at hb1 hb2 hb3 hb4 hs1 hs2
    cases hpw with
    | cons hbef hpw2 =>
      have hall2 : ∀ x ∈ tl, BlkOK a b x ∧ i2 + k2 ≤ x.1 ∧ j2 + k2 ≤ x.2.1 := by
        intro x hx
        have hbx := hbef x hx
        rw [Before] at hbx
        dsimp only at hbx
        exact ⟨(hall x (List.mem_cons_of_mem _ hx)).1, by omega, by omega⟩
      rw [nonAdjacent]
      by_cases hadj : i1 + k1 = i2 ∧ j1 + k1 = j2
      · rw [if_pos hadj]
        obtain ⟨ha1, ha2⟩ := hadj
        rw [← ha1] at hb2 hb4
        rw [← ha2] at hb3 hb4
        apply ih i1 j1 (k1 + k2) c1 c2 h1 h2 (by omega) (by omega)
        · rw [show i1 + (k1 + k2) = i1 + k1 + k2 by omega,
            show j1 + (k1 + k2) = j1 + k1 + k2 by omega,
            slice_split (show i1 ≤ i1 + k1 by omega)
              (show i1 + k1 ≤ i1 + k1 + k2 by omega),
            slice_split (show j1 ≤ j1 + k1 by omega)
              (show j1 + k1 ≤ j1 + k1 + k2 by omega),
            h5, hb4]
        · intro x hx
          have hbx := hbef x hx
          rw [Before] at hbx
          dsimp only at hbx
          exact ⟨(hall x (List.mem_cons_of_mem _ hx)).1, by omega, by omega⟩
        · exact hpw2
      · rw [if_neg hadj, List.append_assoc]
        by_cases hk : k1 ≠ 0
        · rw [if_pos hk, List.singleton_append,
            validBlocksFrom_cons' a b c1 c2 i1 j1 k1 _ (by simp)]
          simp only [Bool.and_eq_true, decide_eq_true_eq]
          exact ⟨⟨⟨⟨⟨h1, h2⟩, h3⟩, h4⟩, h5⟩,
            ih i2 j2 k2 (i1 + k1) (j1 + k1) hs1 hs2 hb2 hb3 hb4 hall2 hpw2⟩
        · rw [if_neg hk, List.nil_append]
          have hk0 : k1 = 0 := not_not.mp hk
          exact ih i2 j2 k2 c1 c2 (by omega) (by omega) hb2 hb3 hb4 hall2 hpw2

/-- `get_matching_blocks` always returns a valid decomposition: ordered,
in-bounds, genuinely matching blocks ending with the sentinel. -/
theorem matching_blocks_valid (a b : List Line) :
    validBlocks a b (getMatchingBlocks a b) = true := by
  rw [validBlocks]
  simp only [getMatchingBlocks]
  obtain ⟨hB, hP⟩ := gmbLoop_ok (2 * a.length + 2)
    [(0, a.length, 0, b.length)] []
    (by
      intro w hw
      rcases List.mem_singleton.mp hw with rfl
      exact ⟨Nat.zero_le _, Nat.le_refl _, Nat.zero_le _, Nat.le_refl _⟩)
    (List.pairwise_singleton _ _)
    (fun x hx => absurd hx (List.not_mem_nil x))
    List.Pairwise.nil
    (fun x hx => absurd hx (List.not_mem_nil x))
  have hperm := insertionSort_perm blockLE
    (gmbLoop a b (2 * a.length + 2) [(0, a.length, 0, b.length)] [])
  have hBs : ∀ x ∈ insertionSort blockLE
      (gmbLoop a b (2 * a.length + 2) [(0, a.length, 0, b.length)] []),
      BlkOK a b x := fun x hx => hB x (hperm.subset hx)
  have hPs := (hperm.pairwise_iff (fun h => Sep_symm h)).mpr hP
  have hsorted := insertionSort_sorted blockLE_total blockLE_trans
    (gmbLoop a b (2 * a.length + 2) [(0, a.length, 0, b.length)] [])
  have hbefore := sorted_sep_before hsorted hPs (fun x hx => (hBs x hx).1)
  apply nonAdjacent_valid _ 0 0 0 0 0 (Nat.le_refl 0) (Nat.le_refl 0)
    (by omega) (by omega)
  · rw [Nat.add_zero, slice_self, slice_self]
  · exact fun x hx => ⟨hBs x hx, Nat.zero_le _, Nat.zero_le _⟩
  · exact hbefore

/-- **C6 (corrected).** Diff round-trip: for contents that are empty or
newline-terminated and whose only line-break character is a plain `'\n'`,
and file labels free of line-break characters, applying the unified diff
text produced by `Diff.plain()` to the old content reproduces the new
content exactly. -/
theorem diff_roundtrip (old new fromfile tofile : Str)
    (ho : endsNL old = true) (hn : endsNL new = true)
    (ho2 : onlyNL old = true) (hn2 : onlyNL new = true)
    (hf : noBreak fromfile = true) (hg : noBreak tofile = true) :
    applyUnified (diffPlain old new fromfile tofile) old = some new := by
  have hoN := onlyNL_spec ho2
  have hnN := onlyNL_spec hn2
  have hfB := noBreak_spec hf
  have hgB := noBreak_spec hg
  have hso : splitLines old = splitKeepNL old :=
    splitLines_eq_splitKeepNL old hoN
  have hsn : splitLines new = splitKeepNL new :=
    splitLines_eq_splitKeepNL new hnN
  have hv := matching_blocks_valid (splitKeepNL old) (splitKeepNL new)
  have hG := groups_of_valid
    (getMatchingBlocks (splitKeepNL old) (splitKeepNL new)) hv
  cases hgs : getGroupedOpcodes 3
      (getOpcodes (getMatchingBlocks (splitKeepNL old) (splitKeepNL new))) with
  | nil =>
    rw [hgs] at hG
    cases hG with
    | nil _ _ hc hd hlen heq =>
      rw [slice_zero_length, slice_zero_length] at heq
      have hone : old = new := by
        rw [← splitKeepNL_flatten old, ← splitKeepNL_flatten new, heq]
      subst hone
      simp only [diffPlain, unifiedDiff, hso, hgs]
      rw [if_true, List.flatten_nil]
      rfl
  | cons g0 gs0 =>
    rw [hgs] at hG
    have hA := splitKeepNL_clean ho hoN
    have hB := splitKeepNL_clean hn hnN
    have hbody : ∀ l ∈ (g0 :: gs0).flatMap
        (hunkLines (splitKeepNL old) (splitKeepNL new)), CleanLine l := by
      intro l hl
      obtain ⟨g, _, hlg⟩ := List.mem_flatMap.mp hl
      exact hunkLines_clean hA hB g l hlg
    have hm1 : CleanLine (str "--- " ++ fromfile ++ ['\n']) :=
      fileHeader_clean _ _
        (by decide : ∀ q ∈ str "--- ", isLineBreak q = false) hfB
    have hm2 : CleanLine (str "+++ " ++ tofile ++ ['\n']) :=
      fileHeader_clean _ _
        (by decide : ∀ q ∈ str "+++ ", isLineBreak q = false) hgB
    have hsplit : splitKeepNL (((str "--- " ++ fromfile ++ ['\n']) ::
        (str "+++ " ++ tofile ++ ['\n']) ::
        (g0 :: gs0).flatMap
          (hunkLines (splitKeepNL old) (splitKeepNL new))).flatten) =
        (str "--- " ++ fromfile ++ ['\n']) ::
        (str "+++ " ++ tofile ++ ['\n']) ::
        (g0 :: gs0).flatMap
          (hunkLines (splitKeepNL old) (splitKeepNL new)) := by
      apply splitKeepNL_flatten_proper
      intro l hl
      rcases List.mem_cons.mp hl with rfl | hl
      · exact hm1.proper
      · rcases List.mem_cons.mp hl with rfl | hl
        · exact hm2.proper
        · exact (hbody l hl).proper
    simp only [diffPlain, unifiedDiff, hso, hsn, hgs]
    rw [if_neg (by simp : ¬(g0 :: gs0 = [])), applyUnified]
    split
    · rename_i heq
      rw [hsplit] at heq
      cases heq
    · rename_i x heq
      rw [hsplit] at heq
      simp at heq
    · rename_i l1 l2 rest2 heq
      rw [hsplit] at heq
      injection heq with h1 h2
      injection h2 with h3 h4
      subst h1
      subst h3
      subst h4
      rw [if_pos ⟨List.isPrefixOf_iff_prefix.mpr
          ((List.prefix_append _ _).trans (List.prefix_append _ _)),
        List.isPrefixOf_iff_prefix.mpr
          ((List.prefix_append _ _).trans (List.prefix_append _ _))⟩]
      have hRT := groups_roundtrip (g0 :: gs0) 0 0 hG []
        ((g0 :: gs0).flatMap
          (hunkLines (splitKeepNL old) (splitKeepNL new))).length
        (Nat.le_refl _)
      rw [List.nil_append, slice_zero_length] at hRT
      cases hph : parseHunksF
          ((g0 :: gs0).flatMap
            (hunkLines (splitKeepNL old) (splitKeepNL new))).length
          ((g0 :: gs0).flatMap
            (hunkLines (splitKeepNL old) (splitKeepNL new))) with
      | none =>
        rw [hph] at hRT
        simp at hRT
      | some hunks =>
        rw [hph, Option.some_bind] at hRT
        show (applyHunks 0 (splitKeepNL old) hunks []).map List.flatten =
          some new
        rw [hRT, Option.map_some', splitKeepNL_flatten]

/-- Witness for C6: on the newline-terminated contents `"hello\nworld\n"` →
`"hello\nthere\n"` with line-break-free labels, every hypothesis of
`diff_roundtrip` holds and the produced diff applies back to the new
content. -/
theorem diff_roundtrip_witness :
    endsNL (str "hello\nworld\n") = true ∧
      endsNL (str "hello\nthere\n") = true ∧
      onlyNL (str "hello\nworld\n") = true ∧
      onlyNL (str "hello\nthere\n") = true ∧
      noBreak (str "f") = true ∧ noBreak (str "g") = true ∧
      applyUnified
          (diffPlain (str "hello\nworld\n") (str "hello\nthere\n")
            (str "f") (str "g"))
          (str "hello\nworld\n") =
        some (str "hello\nthere\n") :=
  ⟨by decide, by decide, by decide, by decide, by decide, by decide,
    diff_roundtrip (str "hello\nworld\n") (str "hello\nthere\n")
      (str "f") (str "g")
      (by decide) (by decide) (by decide) (by decide) (by decide) (by decide)⟩


/-- Counterexample to C6 as stated, in both failure modes.  When the
contents do not end in a newline (`"a"` → `"b"`), `difflib` emits body
lines without trailing newlines and `Diff.plain()` joins them into the
garbled `"-a+b"`.  When a content line contains another `str.splitlines`
separator (`"x\fy\n"` → `"z\n"`), the differ splits at the form feed and
the joined body line `"-x\x0c-y\n"` is equally garbled.  In either case
applying the joined diff text to the old content cannot recover the new
content. -/
theorem diff_roundtrip_cex :
    ¬ applyUnified (diffPlain (str "a") (str "b") (str "f") (str "g"))
        (str "a") = some (str "b") ∧
    ¬ applyUnified (diffPlain (str "x\u000cy\n") (str "z\n")
        (str "f") (str "g")) (str "x\u000cy\n") = some (str "z\n") :=
  ⟨by decide, by decide⟩

end Minicode
